import Mathlib

/-!
FlickrAPI: request signing, URL construction and execution.

A shallow embedding of `flickr.go` (package `FlickrAPI`): `Request.sign`,
`encodeQuery`, `Request.url` and `Connection.execute`, followed by theorems
about them.

Modelling conventions.

* A Go `string` is a finite sequence of bytes.  Bytes are natural numbers
  (below 256 for every real string); every theorem below holds for all
  sequences of naturals.
* A Go `map[string]string` that has been allocated is a finite map with
  distinct keys (`AList`).  `delete(m, k)` is `AList.erase`, `m[k] = v` is
  `AList.insert`, the read `m[k]` is `mapGet` (the empty string when `k` is
  absent) and `len(m)` is the number of entries.  A nil map is `none`.
* The order in which `for k := range m` visits a map is unspecified in Go.  It is
  a parameter of the model (`RangeOrder`): any function that enumerates the
  entries of each map in some order.
* A run-time panic is the result `none`.
* `crypto/md5` is embedded in full (RFC 1321); `url.QueryEscape`, `http.NewRequest`
  and `http.Client.Do` are library functions taken as parameters.
-/

set_option maxRecDepth 100000

namespace FlickrAPI

/-! ## Strings -/

/-- A Go string: a sequence of bytes. -/
abbrev GoString := List Nat

/-- The bytes of an ASCII string literal of the source. -/
def lit (s : String) : GoString := s.toList.map Char.toNat

/-- Go's `a <= b` on strings: byte-wise lexicographic comparison. -/
def strLe : GoString → GoString → Bool
  | [], _ => true
  | _ :: _, [] => false
  | a :: as, b :: bs => if a < b then true else if b < a then false else strLe as bs

/-- The order `sort.Strings` sorts by. -/
def StrLE (a b : GoString) : Prop := strLe a b = true

instance StrLE.decidableRel : DecidableRel StrLE := fun a b => decEq (strLe a b) true

/-- The call `sort.Strings(xs)`: the slice rearranged into ascending order.  The result of
sorting is the unique ascending rearrangement (`sortStrings_unique`), so the algorithm used
does not matter; insertion sort is used here. -/
def sortStrings (xs : List GoString) : List GoString := List.insertionSort StrLE xs

/-! ## crypto/md5 and `%x` formatting -/

namespace MD5

/-- Addition of 32-bit words. -/
def add32 (x y : Nat) : Nat := (x + y) % 2 ^ 32

/-- Bitwise complement of a 32-bit word. -/
def not32 (x : Nat) : Nat := (x % 2 ^ 32) ^^^ 0xffffffff

/-- Left rotation of a 32-bit word by `c` bits. -/
def rotl32 (x c : Nat) : Nat :=
  ((x <<< c) % 2 ^ 32) ||| ((x % 2 ^ 32) >>> (32 - c))

/-- Per-round shift amounts. -/
def shifts : List Nat :=
  [7, 12, 17, 22, 7, 12, 17, 22, 7, 12, 17, 22, 7, 12, 17, 22,
   5, 9, 14, 20, 5, 9, 14, 20, 5, 9, 14, 20, 5, 9, 14, 20,
   4, 11, 16, 23, 4, 11, 16, 23, 4, 11, 16, 23, 4, 11, 16, 23,
   6, 10, 15, 21, 6, 10, 15, 21, 6, 10, 15, 21, 6, 10, 15, 21]

/-- The sine table: entry `i` is `floor (2^32 * |sin (i + 1)|)`. -/
def table : List Nat :=
  [0xd76aa478, 0xe8c7b756, 0x242070db, 0xc1bdceee,
   0xf57c0faf, 0x4787c62a, 0xa8304613, 0xfd469501,
   0x698098d8, 0x8b44f7af, 0xffff5bb1, 0x895cd7be,
   0x6b901122, 0xfd987193, 0xa679438e, 0x49b40821,
   0xf61e2562, 0xc040b340, 0x265e5a51, 0xe9b6c7aa,
   0xd62f105d, 0x02441453, 0xd8a1e681, 0xe7d3fbc8,
   0x21e1cde6, 0xc33707d6, 0xf4d50d87, 0x455a14ed,
   0xa9e3e905, 0xfcefa3f8, 0x676f02d9, 0x8d2a4c8a,
   0xfffa3942, 0x8771f681, 0x6d9d6122, 0xfde5380c,
   0xa4beea44, 0x4bdecfa9, 0xf6bb4b60, 0xbebfbc70,
   0x289b7ec6, 0xeaa127fa, 0xd4ef3085, 0x04881d05,
   0xd9d4d039, 0xe6db99e5, 0x1fa27cf8, 0xc4ac5665,
   0xf4292244, 0x432aff97, 0xab9423a7, 0xfc93a039,
   0x655b59c3, 0x8f0ccc92, 0xffeff47d, 0x85845dd1,
   0x6fa87e4f, 0xfe2ce6e0, 0xa3014314, 0x4e0811a1,
   0xf7537e82, 0xbd3af235, 0x2ad7d2bb, 0xeb86d391]

/-- The four chaining words. -/
structure State where
  a : Nat
  b : Nat
  c : Nat
  d : Nat

/-- Initial chaining value. -/
def init : State := ⟨0x67452301, 0xefcdab89, 0x98badcfe, 0x10325476⟩

/-- The `n` low bytes of `x`, little-endian. -/
def leBytes : Nat → Nat → List Nat
  | 0, _ => []
  | n + 1, x => x % 256 :: leBytes n (x / 256)

/-- The little-endian 32-bit word at byte offset `4 * j` of a block. -/
def word (blk : List Nat) (j : Nat) : Nat :=
  blk.getD (4 * j) 0 % 256 + 256 * (blk.getD (4 * j + 1) 0 % 256)
    + 65536 * (blk.getD (4 * j + 2) 0 % 256) + 16777216 * (blk.getD (4 * j + 3) 0 % 256)

/-- One of the 64 operations on a block. -/
def step (blk : List Nat) (s : State) (i : Nat) : State :=
  let f :=
    if i < 16 then (s.b &&& s.c) ||| (not32 s.b &&& s.d)
    else if i < 32 then (s.d &&& s.b) ||| (not32 s.d &&& s.c)
    else if i < 48 then s.b ^^^ s.c ^^^ s.d
    else s.c ^^^ (s.b ||| not32 s.d)
  let g :=
    if i < 16 then i
    else if i < 32 then (5 * i + 1) % 16
    else if i < 48 then (3 * i + 5) % 16
    else (7 * i) % 16
  let f2 := add32 (add32 (add32 f s.a) (table.getD i 0)) (word blk g)
  ⟨s.d, add32 s.b (rotl32 f2 (shifts.getD i 0)), s.b, s.c⟩

/-- Compression of one 64-byte block. -/
def block (s : State) (blk : List Nat) : State :=
  let t := (List.range 64).foldl (step blk) s
  ⟨add32 s.a t.a, add32 s.b t.b, add32 s.c t.c, add32 s.d t.d⟩

/-- Padding: a `0x80` byte, zero bytes up to 56 modulo 64, and the bit length in 8 bytes. -/
def pad (msg : List Nat) : List Nat :=
  msg ++ 0x80 :: List.replicate ((55 + 64 - msg.length % 64) % 64) 0 ++ leBytes 8 (8 * msg.length)

/-- Compression of the first `n` blocks of a padded message. -/
def blocks : Nat → State → List Nat → State
  | 0, s, _ => s
  | n + 1, s, l => blocks n (block s (l.take 64)) (l.drop 64)

/-- The 16-byte digest: `hash := md5.New(); hash.Write(msg); hash.Sum(nil)`. -/
def sum (msg : List Nat) : List Nat :=
  let p := pad msg
  let s := blocks (p.length / 64) init p
  leBytes 4 s.a ++ leBytes 4 s.b ++ leBytes 4 s.c ++ leBytes 4 s.d

end MD5

/-- One lowercase hexadecimal digit, as an ASCII byte. -/
def hexDigit (n : Nat) : Nat := if n < 10 then 48 + n else 87 + n

/-- The format `fmt.Sprintf("%x", bs)` of a byte slice: two lowercase hex digits per byte. -/
def hexLower (bs : List Nat) : GoString :=
  bs.flatMap fun b => [hexDigit (b / 16 % 16), hexDigit (b % 16)]

/-! ## Maps -/

/-- An allocated Go `map[string]string`. -/
abbrev GoMap := AList (fun _ : GoString => GoString)

/-- An entry of a map. -/
abbrev Entry := Sigma (fun _ : GoString => GoString)

/-- The read `m[k]`: the value stored under `k`, or the empty string. -/
def mapGet (m : GoMap) (k : GoString) : GoString := (m.lookup k).getD []

/-- The value `len(m)`. -/
def mapLen (m : GoMap) : Nat := m.entries.length

/-- An iteration order for `range` over maps: each map's entries, in some order. -/
structure RangeOrder where
  order : GoMap → List Entry
  perm : ∀ m, (order m).Perm m.entries

/-- The iteration order that visits the entries in the order of the representation. -/
def RangeOrder.stored : RangeOrder := ⟨fun m => m.entries, fun _ => List.Perm.refl _⟩

/-- The iteration order that visits the entries in the reverse order of the representation. -/
def RangeOrder.reversed : RangeOrder :=
  ⟨fun m => m.entries.reverse, fun _ => List.reverse_perm _⟩

/-! ## The source: `const endpoint`, `Request`, `Error` -/

/-- The constant `endpoint`. -/
def endpoint : GoString := lit "https://api.flickr.com/services/rest/?"

/-- The struct `Request`; `Args` is `none` for a nil map. -/
structure Request where
  ApiKey : GoString
  Method : GoString
  Args : Option GoMap

/-! ## `Request.sign` -/

/-- The loop `for k := range args { sorted_keys[i] = k; i++ }`, started at index `i`: each key
is stored at the next index.  An index out of range panics (`none`). -/
def fillKeys : List GoString → Nat → List GoString → Option (List GoString)
  | slice, _, [] => some slice
  | slice, i, k :: ks => if i < slice.length then fillKeys (slice.set i k) (i + 1) ks else none

/-- Lines 41 to 46 of `sign`, on the map: `delete(args, "api_sig")`, then
`args["api_key"] = request.ApiKey` and `args["method"] = request.Method`. -/
def signArgs (ApiKey Method : GoString) (args : GoMap) : GoMap :=
  ((args.erase (lit "api_sig")).insert (lit "api_key") ApiKey).insert (lit "method") Method

/-- The slice `sorted_keys` after `sort.Strings(sorted_keys)` (lines 41 to 54 of `sign`): it is
made with length `len(args) + 2` after `api_sig` is deleted and before `api_key` and `method`
are assigned, holds empty strings, receives the keys of the map in range order, and is
sorted. -/
def sortedKeys (ρ : RangeOrder) (ApiKey Method : GoString) (args : GoMap) :
    Option (List GoString) :=
  let sorted_keys := List.replicate (mapLen (args.erase (lit "api_sig")) + 2) ([] : GoString)
  (fillKeys sorted_keys 0 ((ρ.order (signArgs ApiKey Method args)).map Sigma.fst)).map sortStrings

/-- One iteration of the loop at lines 58 to 62 of `sign`.  The first component is the string
`s`; the second records the (name, value) pairs appended to `s` so far. -/
def signStep (args : GoMap) (acc : GoString × List (GoString × GoString)) (key : GoString) :
    GoString × List (GoString × GoString) :=
  if mapGet args key ≠ [] then
    (acc.1 ++ (key ++ mapGet args key), acc.2 ++ [(key, mapGet args key)])
  else acc

/-- The loop at lines 57 to 62 of `sign`: `s := secret`, then one `signStep` per element of
`sorted_keys`. -/
def signLoop (secret : GoString) (args : GoMap) (sorted_keys : List GoString) :
    GoString × List (GoString × GoString) :=
  sorted_keys.foldl (signStep args) (secret, [])

/-- The string `s` that `sign` writes to the MD5 hash (its value at line 72). -/
def hashInput (ρ : RangeOrder) (secret ApiKey Method : GoString) (args : GoMap) :
    Option GoString :=
  (sortedKeys ρ ApiKey Method args).map fun ks =>
    (signLoop secret (signArgs ApiKey Method args) ks).1

/-- The (name, value) pairs that `sign` concatenates into the hashed string, in order. -/
def signedPairs (ρ : RangeOrder) (secret ApiKey Method : GoString) (args : GoMap) :
    Option (List (GoString × GoString)) :=
  (sortedKeys ρ ApiKey Method args).map fun ks =>
    (signLoop secret (signArgs ApiKey Method args) ks).2

/-- Lines 67 to 75 of `sign`, on the augmented map: `delete(args, "api_key")`,
`delete(args, "method")`, and `args["api_sig"] = sig`. -/
def signedArgs (ApiKey Method : GoString) (args : GoMap) (sig : GoString) : GoMap :=
  (((signArgs ApiKey Method args).erase (lit "api_key")).erase (lit "method")).insert
    (lit "api_sig") sig

/-- The method `Request.sign(secret)`.  The request is returned with its `Args` as the call
leaves them; `none` is a panic (the assignment `args["api_key"] = …` to a nil map, or an index
out of range). -/
def sign (ρ : RangeOrder) (secret : GoString) (request : Request) : Option Request :=
  match request.Args with
  | none => none
  | some args =>
    (hashInput ρ secret request.ApiKey request.Method args).map fun s =>
      { request with
        Args := some (signedArgs request.ApiKey request.Method args (hexLower (MD5.sum s))) }

/-! ## `encodeQuery` and `Request.url` -/

/-- One iteration of the loop of `encodeQuery`; the state is the counter `i` and the buffer. -/
def encodeStep (QueryEscape : GoString → GoString) (st : Nat × GoString) (e : Entry) :
    Nat × GoString :=
  let s := if st.1 ≠ 0 then st.2 ++ lit "&" else st.2
  (st.1 + 1, s ++ (e.1 ++ lit "=" ++ QueryEscape e.2))

/-- The function `encodeQuery(args)`. -/
def encodeQuery (ρ : RangeOrder) (QueryEscape : GoString → GoString) (args : GoMap) : GoString :=
  ((ρ.order args).foldl (encodeStep QueryEscape) (0, [])).2

/-- Lines 92 to 94 of `url`, on the map: `args["api_key"] = request.ApiKey` and
`args["method"] = request.Method`. -/
def urlArgs (ApiKey Method : GoString) (args : GoMap) : GoMap :=
  (args.insert (lit "api_key") ApiKey).insert (lit "method") Method

/-- The method `Request.url()`: the returned string and the request with its `Args` as
mutated; `none` is a panic (assignment to an entry of a nil map). -/
def url (ρ : RangeOrder) (QueryEscape : GoString → GoString) (request : Request) :
    Option (GoString × Request) :=
  match request.Args with
  | none => none
  | some args =>
    let args2 := urlArgs request.ApiKey request.Method args
    some (endpoint ++ encodeQuery ρ QueryEscape args2, { request with Args := some args2 })

/-! ## `Connection.execute` -/

/-- A Go `error` value as `execute` can return it: a value of the package's type `Error`
(a string), or an error reported by the HTTP client (a `*url.Error`, kept opaque). -/
inductive GoError where
  | Error (msg : GoString)
  | transport (code : Nat)
deriving DecidableEq

/-- An `*http.Request` as built by `http.NewRequest(method, url, nil)`. -/
structure HttpRequest where
  method : GoString
  url : GoString
deriving DecidableEq

/-- An `*http.Response` as far as `execute` looks at it: the two results of
`ioutil.ReadAll(res.Body)`, the bytes read (`none` for a nil slice) and the read error
(`none` for nil). -/
structure Response where
  data : Option (List Nat)
  readErr : Option Nat
deriving DecidableEq

/-- An `*http.Client`, identified by a number; `Client.zero` is the value `&http.Client{}`. -/
structure Client where
  id : Nat
deriving DecidableEq

/-- The client `&http.Client{}`. -/
def Client.zero : Client := ⟨0⟩

/-- The outcomes of `client.Do(req)`: the call panics, or returns a non-nil error, or
returns a response and a nil error. -/
inductive DoResult where
  | panic
  | error (err : Nat)
  | response (res : Response)
deriving DecidableEq

/-- The HTTP library and the network behind it.  `NewRequest method url` is
`http.NewRequest(method, url, nil)`: `none` when it reports an error (and returns a nil
request).  `Do client req` is `client.Do(req)`, where `req` is `none` for a nil request. -/
structure Net where
  NewRequest : GoString → GoString → Option HttpRequest
  Do : Client → Option HttpRequest → DoResult

/-- The struct `Connection`; `Client` is `none` for a nil pointer. -/
structure Connection where
  APIKey : GoString
  APISecret : GoString
  Client : Option Client

/-- The observable steps of `execute`, in the order they happen. -/
inductive Event where
  | builtURL (s : GoString)
  | sent (client : Client) (req : Option HttpRequest)
  | readBody
  | closedBody
deriving DecidableEq

/-- A run of `execute`: the connection and the request as the call leaves them, the steps
taken, and the returned pair `(body, ret)`, or `none` when the call panics.  In the pair,
`body` is `none` for a nil slice and `ret` is `none` for a nil error. -/
structure Run where
  connection : Connection
  request : Request
  events : List Event
  result : Option (Option (List Nat) × Option GoError)

/-- The method `Connection.execute(request)`. -/
def execute (net : Net) (ρ : RangeOrder) (QueryEscape : GoString → GoString)
    (connection : Connection) (request : Request) : Run :=
  let client := match connection.Client with
    | none => Client.zero
    | some c => c
  let connection1 := { connection with Client := some client }
  if request.ApiKey = [] ∨ request.Method = [] then
    ⟨connection1, request, [],
      some (none, some (GoError.Error (lit "Need both API key and method")))⟩
  else
    match url ρ QueryEscape request with
    | none => ⟨connection1, request, [], none⟩
    | some (s, request1) =>
      let httpRequest := net.NewRequest (lit "GET") s
      match net.Do client httpRequest with
      | DoResult.panic =>
        ⟨connection1, request1, [Event.builtURL s, Event.sent client httpRequest], none⟩
      | DoResult.error err =>
        ⟨connection1, request1, [Event.builtURL s, Event.sent client httpRequest],
          some (none, some (GoError.transport err))⟩
      | DoResult.response res =>
        ⟨connection1, request1,
          [Event.builtURL s, Event.sent client httpRequest, Event.readBody, Event.closedBody],
          some (res.data, none)⟩

/-! ## The properties of the specification, as definitions -/

/-- The entry `args["api_sig"]` after `request.sign(secret)`: `none` when the call panics or
leaves no such entry. -/
def signature (ρ : RangeOrder) (secret : GoString) (request : Request) : Option GoString :=
  (sign ρ secret request).bind fun r => r.Args.bind fun m => m.lookup (lit "api_sig")

/-- The (name, value) pairs that `encodeQuery(args)` renders, in the order it renders them. -/
def renderedPairs (ρ : RangeOrder) (args : GoMap) : List (GoString × GoString) :=
  (ρ.order args).map fun e => (e.1, e.2)

/-- The call `request.sign(secret)` followed by `request.url()`: the URL and the request as
the two calls leave it. -/
def signThenUrl (ρs ρu : RangeOrder) (QueryEscape : GoString → GoString) (secret : GoString)
    (request : Request) : Option (GoString × Request) :=
  (sign ρs secret request).bind (url ρu QueryEscape)

/-- The (name, value) pairs rendered in the query string of the URL after `sign` then `url`,
other than `api_sig`. -/
def sentPairs (ρs ρu : RangeOrder) (QueryEscape : GoString → GoString) (secret : GoString)
    (request : Request) : Option (List (GoString × GoString)) :=
  (signThenUrl ρs ρu QueryEscape secret request).bind fun ur =>
    ur.2.Args.map fun m => (renderedPairs ρu m).filter fun p => p.1 ≠ lit "api_sig"

/-- The map `request.Args` after `request.sign(secret)`; `none` when the call panics. -/
def argsAfterSign (ρ : RangeOrder) (secret : GoString) (request : Request) : Option GoMap :=
  (sign ρ secret request).bind fun r => r.Args

/-- The entry `args["api_sig"]` after two calls of `request.sign(secret)` in a row, the
first iterating in the order `ρ` and the second in the order `ρ'`. -/
def signatureTwice (ρ ρ' : RangeOrder) (secret : GoString) (request : Request) :
    Option GoString :=
  (sign ρ secret request).bind (signature ρ' secret)

/-- An upper-case hexadecimal digit, as an ASCII byte. -/
def upperHexDigit (n : Nat) : Nat := if n < 10 then 48 + n else 55 + n

/-- Go's `url.QueryEscape` (used for concrete runs only; the theorems take the escaping
function as a parameter): ASCII letters, digits and `-`, `_`, `.`, `~` are kept, a space
becomes `+`, every other byte becomes `%XX`. -/
def queryEscape (s : GoString) : GoString :=
  s.flatMap fun c =>
    if (97 ≤ c ∧ c ≤ 122) ∨ (65 ≤ c ∧ c ≤ 90) ∨ (48 ≤ c ∧ c ≤ 57)
        ∨ c = 45 ∨ c = 95 ∨ c = 46 ∨ c = 126 then [c]
    else if c = 32 then [43]
    else [37, upperHexDigit (c / 16 % 16), upperHexDigit (c % 16)]

/-- The string the specification says is hashed: `secret`, followed by `name ++ value` for
each name of the map `m` in ascending order, skipping names whose value is empty. -/
def canonicalString (secret : GoString) (m : GoMap) : GoString :=
  secret ++ (sortStrings m.keys).flatMap fun name =>
    if mapGet m name ≠ [] then name ++ mapGet m name else []

/-- A map from a list of (name, value) pairs, assigned in order. -/
def mapOf (l : List (GoString × GoString)) : GoMap :=
  l.foldl (fun m p => m.insert p.1 p.2) ∅

/-- The rendering `k + "=" + url.QueryEscape(v)` of one entry. -/
def renderPair (QueryEscape : GoString → GoString) (e : Entry) : GoString :=
  e.1 ++ lit "=" ++ QueryEscape e.2

/-! ## Auxiliary definitions for the proofs -/

/-- The number of empty strings that remain in `sorted_keys`: the slots made for `api_key`
and `method` that the map did not need. -/
def padding (ApiKey Method : GoString) (args : GoMap) : Nat :=
  mapLen (args.erase (lit "api_sig")) + 2 - mapLen (signArgs ApiKey Method args)

/-- What one name contributes to the hashed string. -/
def contrib (m : GoMap) (key : GoString) : GoString :=
  if mapGet m key ≠ [] then key ++ mapGet m key else []

/-- The pair one name contributes to the hashed string, if any. -/
def contribPair (m : GoMap) (key : GoString) : List (GoString × GoString) :=
  if mapGet m key ≠ [] then [(key, mapGet m key)] else []

/-- The names `sign` iterates over, in order (independent of the iteration order). -/
def canonKeys (ApiKey Method : GoString) (args : GoMap) : List GoString :=
  sortStrings ((signArgs ApiKey Method args).keys ++ List.replicate (padding ApiKey Method args) [])

/-- The value `Error("Need both API key and method")`. -/
def invalidRequest : GoError := GoError.Error (lit "Need both API key and method")

/-- A network on which every GET succeeds and the read of the body fails with error `7` after
the two bytes `hi`. -/
def brokenBody : Net where
  NewRequest := fun method u => some ⟨method, u⟩
  Do := fun _ _ => DoResult.response ⟨some (lit "hi"), some 7⟩


/-! ## The order on strings and sorting -/

theorem strLe_total (a b : GoString) : strLe a b = true ∨ strLe b a = true := by
  induction a generalizing b with
  | nil => left; simp [strLe]
  | cons x xs ih =>
    cases b with
    | nil => right; simp [strLe]
    | cons y ys =>
      rcases Nat.lt_trichotomy x y with h | h | h
      · left; simp [strLe, h]
      · subst h; simpa [strLe] using ih ys
      · right; simp [strLe, h]

theorem strLe_trans (a b c : GoString) (hab : strLe a b = true) (hbc : strLe b c = true) :
    strLe a c = true := by
  induction a generalizing b c with
  | nil => simp [strLe]
  | cons x xs ih =>
    cases b with
    | nil => simp [strLe] at hab
    | cons y ys =>
      cases c with
      | nil => simp [strLe] at hbc
      | cons z zs =>
        simp only [strLe] at hab hbc ⊢
        split_ifs at hab hbc ⊢ <;> first | rfl | omega | exact ih _ _ hab hbc

theorem strLe_antisymm (a b : GoString) (hab : strLe a b = true) (hba : strLe b a = true) :
    a = b := by
  induction a generalizing b with
  | nil => cases b with
    | nil => rfl
    | cons y ys => simp [strLe] at hba
  | cons x xs ih =>
    cases b with
    | nil => simp [strLe] at hab
    | cons y ys =>
      simp only [strLe] at hab hba
      split_ifs at hab hba <;> first | omega | skip
      have hxy : x = y := by omega
      subst hxy
      rw [ih ys hab hba]

instance StrLE.isTotal : IsTotal GoString StrLE := ⟨strLe_total⟩

instance StrLE.isTrans : IsTrans GoString StrLE := ⟨strLe_trans⟩

instance StrLE.isAntisymm : IsAntisymm GoString StrLE := ⟨strLe_antisymm⟩

theorem sortStrings_perm (xs : List GoString) : (sortStrings xs).Perm xs :=
  List.perm_insertionSort StrLE xs

theorem sortStrings_sorted (xs : List GoString) : (sortStrings xs).Sorted StrLE :=
  List.sorted_insertionSort StrLE xs

/-- Sorting is determined by its specification: every ascending rearrangement of `xs` is
`sortStrings xs`. -/
theorem sortStrings_unique (xs ys : List GoString) (hp : ys.Perm xs) (hs : ys.Sorted StrLE) :
    ys = sortStrings xs :=
  List.eq_of_perm_of_sorted (hp.trans (sortStrings_perm xs).symm) hs (sortStrings_sorted xs)

theorem sortStrings_congr {xs ys : List GoString} (hp : xs.Perm ys) :
    sortStrings xs = sortStrings ys :=
  sortStrings_unique ys (sortStrings xs) ((sortStrings_perm xs).trans hp) (sortStrings_sorted xs)

theorem mem_sortStrings {xs : List GoString} {x : GoString} : x ∈ sortStrings xs ↔ x ∈ xs :=
  (sortStrings_perm xs).mem_iff

/-- The empty string is below every string. -/
theorem strLE_nil (a : GoString) : StrLE [] a := by
  simp [StrLE, strLe]


/-! ## Maps: keys and lengths -/

theorem mapLen_eq_keys (m : GoMap) : mapLen m = m.keys.length := by
  simp [mapLen, AList.keys, List.keys]

theorem keys_perm_of_mem_iff (s t : GoMap) (h : ∀ x, x ∈ s ↔ x ∈ t) : s.keys.Perm t.keys :=
  (List.perm_ext_iff_of_nodup s.keys_nodup t.keys_nodup).2 fun x => by
    rw [← AList.mem_keys, ← AList.mem_keys]; exact h x

theorem mapLen_insert_le (k v : GoString) (m : GoMap) : mapLen (m.insert k v) ≤ mapLen m + 1 := by
  simp only [mapLen, AList.insert_entries, List.length_cons]
  exact Nat.succ_le_succ (List.kerase_sublist k m.entries).length_le

theorem mapLen_insert_of_mem {k : GoString} (v : GoString) {m : GoMap} (h : k ∈ m) :
    mapLen (m.insert k v) = mapLen m := by
  rw [mapLen_eq_keys, mapLen_eq_keys]
  apply List.Perm.length_eq
  apply keys_perm_of_mem_iff
  intro x
  rw [AList.mem_insert]
  constructor
  · rintro (rfl | hx)
    · exact h
    · exact hx
  · exact Or.inr

theorem mapLen_insert_of_not_mem {k : GoString} (v : GoString) {m : GoMap} (h : k ∉ m) :
    mapLen (m.insert k v) = mapLen m + 1 := by
  rw [mapLen, AList.insert_entries_of_neg h]
  rfl

theorem rangeKeys_perm (ρ : RangeOrder) (m : GoMap) :
    ((ρ.order m).map Sigma.fst).Perm m.keys := by
  simpa [AList.keys, List.keys] using (ρ.perm m).map Sigma.fst

theorem rangeKeys_length (ρ : RangeOrder) (m : GoMap) :
    ((ρ.order m).map Sigma.fst).length = mapLen m := by
  rw [mapLen_eq_keys]; exact (rangeKeys_perm ρ m).length_eq

/-! ## `sorted_keys` -/

theorem set_length_append (pre : List GoString) (x k : GoString) (rest : List GoString) :
    (pre ++ x :: rest).set pre.length k = pre ++ k :: rest := by
  induction pre with
  | nil => rfl
  | cons p ps ih => simp [ih]

/-- Filling a slice of empty strings never leaves its bounds when there are at most as many
keys as slots; the unused slots keep the empty string. -/
theorem fillKeys_replicate (ks pre : List GoString) (n : Nat) (h : ks.length ≤ n) :
    fillKeys (pre ++ List.replicate n []) pre.length ks
      = some (pre ++ ks ++ List.replicate (n - ks.length) []) := by
  induction ks generalizing pre n with
  | nil => simp [fillKeys]
  | cons k ks ih =>
    obtain ⟨m, rfl⟩ : ∃ m, n = m + 1 := ⟨n - 1, by simp at h; omega⟩
    have hlen : (k :: ks).length ≤ m + 1 := h
    have hks : ks.length ≤ m := by simpa using hlen
    have hlt : pre.length < (pre ++ List.replicate (m + 1) ([] : GoString)).length := by
      simp
    rw [fillKeys, if_pos hlt, List.replicate_succ, set_length_append]
    have := ih (pre ++ [k]) m hks
    simp only [List.length_append, List.length_singleton, List.append_assoc,
      List.singleton_append] at this
    rw [this]
    simp

theorem mapLen_signArgs_le (ApiKey Method : GoString) (args : GoMap) :
    mapLen (signArgs ApiKey Method args) ≤ mapLen (args.erase (lit "api_sig")) + 2 := by
  unfold signArgs
  have h1 := mapLen_insert_le (lit "method") Method
    ((args.erase (lit "api_sig")).insert (lit "api_key") ApiKey)
  have h2 := mapLen_insert_le (lit "api_key") ApiKey (args.erase (lit "api_sig"))
  omega

/-- The value of `sorted_keys` after sorting: `sign` never indexes out of range, and the slice
holds the names of the augmented map and `padding` empty strings, in ascending order,
whatever the iteration order. -/
theorem sortedKeys_eq (ρ : RangeOrder) (ApiKey Method : GoString) (args : GoMap) :
    sortedKeys ρ ApiKey Method args
      = some (sortStrings ((signArgs ApiKey Method args).keys
          ++ List.replicate (padding ApiKey Method args) [])) := by
  unfold sortedKeys
  have hlen := rangeKeys_length ρ (signArgs ApiKey Method args)
  have hle := mapLen_signArgs_le ApiKey Method args
  have h := fillKeys_replicate ((ρ.order (signArgs ApiKey Method args)).map Sigma.fst) []
    (mapLen (args.erase (lit "api_sig")) + 2) (by omega)
  simp only [List.nil_append, List.length_nil] at h
  simp only [h, Option.map_some']
  congr 1
  apply sortStrings_congr
  rw [hlen]
  exact (rangeKeys_perm ρ _).append_right _

/-! ## The hashed string -/

theorem foldl_signStep (m : GoMap) (ks : List GoString)
    (acc : GoString × List (GoString × GoString)) :
    ks.foldl (signStep m) acc
      = (acc.1 ++ ks.flatMap (contrib m), acc.2 ++ ks.flatMap (contribPair m)) := by
  induction ks generalizing acc with
  | nil => simp
  | cons k ks ih =>
    rw [List.foldl_cons, ih]
    by_cases h : mapGet m k = []
    · simp [signStep, contrib, contribPair, h]
    · simp [signStep, contrib, contribPair, h]

theorem signLoop_eq (secret : GoString) (m : GoMap) (ks : List GoString) :
    signLoop secret m ks = (secret ++ ks.flatMap (contrib m), ks.flatMap (contribPair m)) := by
  simp [signLoop, foldl_signStep]

theorem hashInput_eq (ρ : RangeOrder) (secret ApiKey Method : GoString) (args : GoMap) :
    hashInput ρ secret ApiKey Method args
      = some (secret ++ (canonKeys ApiKey Method args).flatMap
          (contrib (signArgs ApiKey Method args))) := by
  simp [hashInput, sortedKeys_eq, signLoop_eq, canonKeys]

theorem signedPairs_eq (ρ : RangeOrder) (secret ApiKey Method : GoString) (args : GoMap) :
    signedPairs ρ secret ApiKey Method args
      = some ((canonKeys ApiKey Method args).flatMap
          (contribPair (signArgs ApiKey Method args))) := by
  simp [signedPairs, sortedKeys_eq, signLoop_eq, canonKeys]


/-! ## Reads of the augmented map -/

theorem mapGet_insert_self (m : GoMap) (k v : GoString) : mapGet (m.insert k v) k = v := by
  simp [mapGet, AList.lookup_insert]

theorem mapGet_insert_ne (m : GoMap) {k x : GoString} (v : GoString) (h : x ≠ k) :
    mapGet (m.insert k v) x = mapGet m x := by
  simp [mapGet, AList.lookup_insert_ne h]

theorem mapGet_erase_self (m : GoMap) (k : GoString) : mapGet (m.erase k) k = [] := by
  simp [mapGet, AList.lookup_erase]

theorem mapGet_erase_ne (m : GoMap) {k x : GoString} (h : x ≠ k) :
    mapGet (m.erase k) x = mapGet m x := by
  simp [mapGet, AList.lookup_erase_ne h]

theorem lit_api_key_ne_method : lit "api_key" ≠ lit "method" := by decide

theorem lit_api_sig_ne_method : lit "api_sig" ≠ lit "method" := by decide

theorem lit_api_sig_ne_api_key : lit "api_sig" ≠ lit "api_key" := by decide

theorem mem_signArgs (ApiKey Method : GoString) (args : GoMap) (x : GoString) :
    x ∈ signArgs ApiKey Method args
      ↔ x = lit "method" ∨ x = lit "api_key" ∨ (x ≠ lit "api_sig" ∧ x ∈ args) := by
  simp [signArgs, AList.mem_insert, AList.mem_erase]

theorem mapGet_signArgs_method (ApiKey Method : GoString) (args : GoMap) :
    mapGet (signArgs ApiKey Method args) (lit "method") = Method := by
  simp [signArgs, mapGet_insert_self]

theorem mapGet_signArgs_api_key (ApiKey Method : GoString) (args : GoMap) :
    mapGet (signArgs ApiKey Method args) (lit "api_key") = ApiKey := by
  unfold signArgs
  rw [mapGet_insert_ne _ _ lit_api_key_ne_method, mapGet_insert_self]

theorem mapGet_signArgs_api_sig (ApiKey Method : GoString) (args : GoMap) :
    mapGet (signArgs ApiKey Method args) (lit "api_sig") = [] := by
  unfold signArgs
  rw [mapGet_insert_ne _ _ lit_api_sig_ne_method, mapGet_insert_ne _ _ lit_api_sig_ne_api_key,
    mapGet_erase_self]

theorem mapGet_signArgs_other (ApiKey Method : GoString) (args : GoMap) {x : GoString}
    (h1 : x ≠ lit "method") (h2 : x ≠ lit "api_key") (h3 : x ≠ lit "api_sig") :
    mapGet (signArgs ApiKey Method args) x = mapGet args x := by
  unfold signArgs
  rw [mapGet_insert_ne _ _ h1, mapGet_insert_ne _ _ h2, mapGet_erase_ne _ h3]

/-! ## Concatenations that differ at one name -/

theorem length_flatMap_le {α : Type} (f g : GoString → List α) (L : List GoString)
    (h : ∀ x, (f x).length ≤ (g x).length) :
    (L.flatMap f).length ≤ (L.flatMap g).length := by
  induction L with
  | nil => simp
  | cons x xs ih =>
    simp only [List.flatMap_cons, List.length_append]
    have := h x
    omega

theorem length_flatMap_lt {α : Type} (f g : GoString → List α) (k : GoString)
    (L : List GoString) (hk : k ∈ L) (h : ∀ x, (f x).length ≤ (g x).length)
    (hlt : (f k).length < (g k).length) :
    (L.flatMap f).length < (L.flatMap g).length := by
  induction L with
  | nil => simp at hk
  | cons x xs ih =>
    simp only [List.flatMap_cons, List.length_append]
    have hle := length_flatMap_le f g xs h
    rcases List.mem_cons.1 hk with rfl | hmem
    · omega
    · have := ih hmem
      have := h x
      omega

theorem flatMap_ne_of_same_length {α : Type} (f g : GoString → List α) (k : GoString)
    (L : List GoString) (hk : k ∈ L) (hfg : ∀ x, x ≠ k → f x = g x) (hne : f k ≠ g k)
    (hlen : (f k).length = (g k).length) : L.flatMap f ≠ L.flatMap g := by
  induction L with
  | nil => simp at hk
  | cons x xs ih =>
    simp only [List.flatMap_cons]
    intro heq
    by_cases hx : x = k
    · subst hx
      exact hne (List.append_inj_left heq hlen)
    · rw [hfg x hx] at heq
      have hmem : k ∈ xs := by
        rcases List.mem_cons.1 hk with h | h
        · exact absurd h.symm hx
        · exact h
      exact ih hmem (List.append_cancel_left heq)

/-- Two concatenations over the same list of names differ as soon as the pieces differ for
one name of the list and agree for all others. -/
theorem flatMap_ne_of_ne_at {α : Type} (f g : GoString → List α) (k : GoString)
    (L : List GoString) (hk : k ∈ L) (hfg : ∀ x, x ≠ k → f x = g x) (hne : f k ≠ g k) :
    L.flatMap f ≠ L.flatMap g := by
  rcases Nat.lt_trichotomy (f k).length (g k).length with hlt | heq | hgt
  · have hle : ∀ x, (f x).length ≤ (g x).length := fun x => by
      by_cases hx : x = k
      · subst hx; omega
      · rw [hfg x hx]
    have := length_flatMap_lt f g k L hk hle hlt
    intro h
    rw [h] at this
    omega
  · exact flatMap_ne_of_same_length f g k L hk hfg hne heq
  · have hle : ∀ x, (g x).length ≤ (f x).length := fun x => by
      by_cases hx : x = k
      · subst hx; omega
      · rw [hfg x hx]
    have := length_flatMap_lt g f k L hk hle hgt
    intro h
    rw [h] at this
    omega

theorem contrib_ne_of_mapGet_ne (m m' : GoMap) (k : GoString) (h : mapGet m k ≠ mapGet m' k) :
    contrib m k ≠ contrib m' k := by
  unfold contrib
  by_cases h1 : mapGet m k = [] <;> by_cases h2 : mapGet m' k = []
  · exact absurd (h1.trans h2.symm) h
  · simp [h1, h2]
  · simp [h1, h2]
  · simp only [h1, h2, ne_eq, not_false_eq_true, if_true]
    intro heq
    exact h (List.append_cancel_left heq)

theorem contrib_eq_of_mapGet_eq (m m' : GoMap) (x : GoString) (h : mapGet m x = mapGet m' x) :
    contrib m x = contrib m' x := by
  simp [contrib, h]

/-- The hashed strings of two augmented maps with the same names and the same number of
unused slots differ when the maps differ at exactly one name. -/
theorem hashed_ne_of_ne_at (secret : GoString) (m m' : GoMap) (p : Nat) (k : GoString)
    (hkeys : m'.keys.Perm m.keys) (hk : k ∈ m)
    (hsame : ∀ x, x ≠ k → mapGet m x = mapGet m' x) (hne : mapGet m k ≠ mapGet m' k) :
    secret ++ (sortStrings (m.keys ++ List.replicate p [])).flatMap (contrib m)
      ≠ secret ++ (sortStrings (m'.keys ++ List.replicate p [])).flatMap (contrib m') := by
  rw [sortStrings_congr (hkeys.append_right (List.replicate p []))]
  intro heq
  refine flatMap_ne_of_ne_at (contrib m) (contrib m') k _ ?_ ?_ ?_ (List.append_cancel_left heq)
  · rw [mem_sortStrings]
    exact List.mem_append_left _ (AList.mem_keys.1 hk)
  · intro x hx
    exact contrib_eq_of_mapGet_eq m m' x (hsame x hx)
  · exact contrib_ne_of_mapGet_ne m m' k hne


theorem mapLen_congr (s t : GoMap) (h : ∀ x, x ∈ s ↔ x ∈ t) : mapLen s = mapLen t := by
  rw [mapLen_eq_keys, mapLen_eq_keys]
  exact (keys_perm_of_mem_iff s t h).length_eq

/-- Two signing runs whose maps hold the same names and differ in the value read at exactly
one name of the augmented map hash different strings. -/
theorem hashInput_ne (ρ ρ' : RangeOrder) (secret ApiKey Method ApiKey' Method' : GoString)
    (args args' : GoMap) (k : GoString)
    (hmem : ∀ x, x ≠ lit "api_sig" → (x ∈ args ↔ x ∈ args'))
    (hk : k ∈ signArgs ApiKey Method args)
    (hsame : ∀ x, x ≠ k →
      mapGet (signArgs ApiKey Method args) x = mapGet (signArgs ApiKey' Method' args') x)
    (hne : mapGet (signArgs ApiKey Method args) k ≠ mapGet (signArgs ApiKey' Method' args') k) :
    ∃ s s', hashInput ρ secret ApiKey Method args = some s ∧
      hashInput ρ' secret ApiKey' Method' args' = some s' ∧ s ≠ s' := by
  refine ⟨_, _, hashInput_eq ρ secret ApiKey Method args,
    hashInput_eq ρ' secret ApiKey' Method' args', ?_⟩
  have hmem1 : ∀ x, x ∈ args.erase (lit "api_sig") ↔ x ∈ args'.erase (lit "api_sig") := by
    intro x
    rw [AList.mem_erase, AList.mem_erase]
    constructor
    · rintro ⟨h1, h2⟩; exact ⟨h1, (hmem x h1).1 h2⟩
    · rintro ⟨h1, h2⟩; exact ⟨h1, (hmem x h1).2 h2⟩
  have hmem2 : ∀ x,
      x ∈ signArgs ApiKey' Method' args' ↔ x ∈ signArgs ApiKey Method args := by
    intro x
    rw [mem_signArgs, mem_signArgs]
    constructor
    · rintro (h | h | ⟨h1, h2⟩)
      · exact Or.inl h
      · exact Or.inr (Or.inl h)
      · exact Or.inr (Or.inr ⟨h1, (hmem x h1).2 h2⟩)
    · rintro (h | h | ⟨h1, h2⟩)
      · exact Or.inl h
      · exact Or.inr (Or.inl h)
      · exact Or.inr (Or.inr ⟨h1, (hmem x h1).1 h2⟩)
  have hpad : padding ApiKey' Method' args' = padding ApiKey Method args := by
    unfold padding
    rw [mapLen_congr _ _ hmem1, mapLen_congr _ _ hmem2]
  unfold canonKeys
  rw [hpad]
  exact hashed_ne_of_ne_at secret _ _ _ k (keys_perm_of_mem_iff _ _ hmem2) hk hsame hne


/-! ## The result of `sign` -/

/-- The embedded MD5 on test vectors of RFC 1321. -/
theorem md5_test_vectors :
    hexLower (MD5.sum []) = lit "d41d8cd98f00b204e9800998ecf8427e" ∧
    hexLower (MD5.sum (lit "a")) = lit "0cc175b9c0f1b6a831c399e269772661" ∧
    hexLower (MD5.sum (lit "abc")) = lit "900150983cd24fb0d6963f7d28e17f72" ∧
    hexLower (MD5.sum (lit "message digest")) = lit "f96b697d7cb7938d525a2f31aaf161d0" ∧
    hexLower (MD5.sum (lit ("1234567890123456789012345678901234567890"
        ++ "1234567890123456789012345678901234567890")))
      = lit "57edf4a22be3c955ac49da2e2107b67a" := by
  decide

/-- The hashed string does not depend on the order in which `range` visits the map. -/
theorem hashInput_order_irrelevant (ρ ρ' : RangeOrder) (secret ApiKey Method : GoString)
    (args : GoMap) :
    hashInput ρ secret ApiKey Method args = hashInput ρ' secret ApiKey Method args := by
  rw [hashInput_eq, hashInput_eq]

/-- On a nil map `sign` panics, at the assignment `args["api_key"] = request.ApiKey`. -/
theorem sign_nil (ρ : RangeOrder) (secret ApiKey Method : GoString) :
    sign ρ secret ⟨ApiKey, Method, none⟩ = none := rfl

/-- On a nil map `url` panics, at the assignment `args["api_key"] = request.ApiKey`. -/
theorem url_nil (ρ : RangeOrder) (QueryEscape : GoString → GoString)
    (ApiKey Method : GoString) : url ρ QueryEscape ⟨ApiKey, Method, none⟩ = none := rfl

/-- The request `sign` returns, given the string it hashed. -/
theorem sign_eq (ρ : RangeOrder) (secret : GoString) (ApiKey Method : GoString) (args : GoMap)
    (s : GoString) (hs : hashInput ρ secret ApiKey Method args = some s) :
    sign ρ secret ⟨ApiKey, Method, some args⟩
      = some ⟨ApiKey, Method, some (signedArgs ApiKey Method args (hexLower (MD5.sum s)))⟩ := by
  simp [sign, hs]

theorem signature_eq (ρ : RangeOrder) (secret : GoString) (ApiKey Method : GoString)
    (args : GoMap) (s : GoString) (hs : hashInput ρ secret ApiKey Method args = some s) :
    signature ρ secret ⟨ApiKey, Method, some args⟩ = some (hexLower (MD5.sum s)) := by
  simp [signature, sign_eq ρ secret ApiKey Method args s hs, signedArgs, AList.lookup_insert]

/-! ## Sensitivity of the signature (C7) -/

/-- C7: the signature is sensitive to every non-empty parameter value, to the method name and
to the API key.  Replacing the value `v` of a caller parameter `k` (a name other than
`api_key`, `method`, `api_sig`) by a different non-empty value, or the method name by a
different non-empty one, or the API key by a different non-empty one, with everything else
fixed, changes the string that `sign` feeds to MD5: both runs return, their signatures are the
lowercase hex MD5 digests of two strings `s` and `t`, and `s ≠ t`. -/
theorem sign_sensitive (ρ ρ' : RangeOrder) (secret ApiKey Method : GoString) (args : GoMap) :
    (∀ k v v', k ≠ lit "api_key" → k ≠ lit "method" → k ≠ lit "api_sig" →
        args.lookup k = some v → v' ≠ [] → v' ≠ v →
        ∃ s t, hashInput ρ secret ApiKey Method args = some s ∧
          hashInput ρ' secret ApiKey Method (args.insert k v') = some t ∧ s ≠ t ∧
          signature ρ secret ⟨ApiKey, Method, some args⟩ = some (hexLower (MD5.sum s)) ∧
          signature ρ' secret ⟨ApiKey, Method, some (args.insert k v')⟩
            = some (hexLower (MD5.sum t))) ∧
    (∀ Method', Method' ≠ [] → Method' ≠ Method →
        ∃ s t, hashInput ρ secret ApiKey Method args = some s ∧
          hashInput ρ' secret ApiKey Method' args = some t ∧ s ≠ t ∧
          signature ρ secret ⟨ApiKey, Method, some args⟩ = some (hexLower (MD5.sum s)) ∧
          signature ρ' secret ⟨ApiKey, Method', some args⟩ = some (hexLower (MD5.sum t))) ∧
    (∀ ApiKey', ApiKey' ≠ [] → ApiKey' ≠ ApiKey →
        ∃ s t, hashInput ρ secret ApiKey Method args = some s ∧
          hashInput ρ' secret ApiKey' Method args = some t ∧ s ≠ t ∧
          signature ρ secret ⟨ApiKey, Method, some args⟩ = some (hexLower (MD5.sum s)) ∧
          signature ρ' secret ⟨ApiKey', Method, some args⟩ = some (hexLower (MD5.sum t))) := by
  refine ⟨?_, ?_, ?_⟩
  · intro k v v' hk1 hk2 hk3 hlook _ hv
    have hkmem : k ∈ args := AList.lookup_isSome.1 (by simp [hlook])
    obtain ⟨s, t, hs, ht, hne⟩ := hashInput_ne ρ ρ' secret ApiKey Method ApiKey Method args
      (args.insert k v') k
      (fun x _ => by
        rw [AList.mem_insert]
        constructor
        · exact Or.inr
        · rintro (rfl | h)
          · exact hkmem
          · exact h)
      ((mem_signArgs _ _ _ _).2 (Or.inr (Or.inr ⟨hk3, hkmem⟩)))
      (fun x hx => by
        by_cases h1 : x = lit "method"
        · subst h1; rw [mapGet_signArgs_method, mapGet_signArgs_method]
        · by_cases h2 : x = lit "api_key"
          · subst h2; rw [mapGet_signArgs_api_key, mapGet_signArgs_api_key]
          · by_cases h3 : x = lit "api_sig"
            · subst h3; rw [mapGet_signArgs_api_sig, mapGet_signArgs_api_sig]
            · rw [mapGet_signArgs_other _ _ _ h1 h2 h3, mapGet_signArgs_other _ _ _ h1 h2 h3,
                mapGet_insert_ne _ _ hx])
      (by
        rw [mapGet_signArgs_other _ _ _ hk2 hk1 hk3, mapGet_signArgs_other _ _ _ hk2 hk1 hk3,
          mapGet_insert_self]
        simp only [mapGet, hlook, Option.getD_some]
        exact fun h => hv h.symm)
    exact ⟨s, t, hs, ht, hne, signature_eq _ _ _ _ _ _ hs, signature_eq _ _ _ _ _ _ ht⟩
  · intro Method' _ hM
    obtain ⟨s, t, hs, ht, hne⟩ := hashInput_ne ρ ρ' secret ApiKey Method ApiKey Method' args
      args (lit "method") (fun _ _ => Iff.rfl)
      ((mem_signArgs _ _ _ _).2 (Or.inl rfl))
      (fun x hx => by
        by_cases h2 : x = lit "api_key"
        · subst h2; rw [mapGet_signArgs_api_key, mapGet_signArgs_api_key]
        · by_cases h3 : x = lit "api_sig"
          · subst h3; rw [mapGet_signArgs_api_sig, mapGet_signArgs_api_sig]
          · rw [mapGet_signArgs_other _ _ _ hx h2 h3, mapGet_signArgs_other _ _ _ hx h2 h3])
      (by
        rw [mapGet_signArgs_method, mapGet_signArgs_method]
        exact fun h => hM h.symm)
    exact ⟨s, t, hs, ht, hne, signature_eq _ _ _ _ _ _ hs, signature_eq _ _ _ _ _ _ ht⟩
  · intro ApiKey' _ hK
    obtain ⟨s, t, hs, ht, hne⟩ := hashInput_ne ρ ρ' secret ApiKey Method ApiKey' Method args
      args (lit "api_key") (fun _ _ => Iff.rfl)
      ((mem_signArgs _ _ _ _).2 (Or.inr (Or.inl rfl)))
      (fun x hx => by
        by_cases h1 : x = lit "method"
        · subst h1; rw [mapGet_signArgs_method, mapGet_signArgs_method]
        · by_cases h3 : x = lit "api_sig"
          · subst h3; rw [mapGet_signArgs_api_sig, mapGet_signArgs_api_sig]
          · rw [mapGet_signArgs_other _ _ _ h1 hx h3, mapGet_signArgs_other _ _ _ h1 hx h3])
      (by
        rw [mapGet_signArgs_api_key, mapGet_signArgs_api_key]
        exact fun h => hK h.symm)
    exact ⟨s, t, hs, ht, hne, signature_eq _ _ _ _ _ _ hs, signature_eq _ _ _ _ _ _ ht⟩


/-- C7 at a concrete request: for `args = {foo: "bar"}`, key `abc`, method `flickr.test` and
secret `xyz`, replacing the value of `foo` by `baz`, the method by `flickr.other`, or the key
by `abd` changes the hashed string. -/
theorem sign_sensitive_witness :
    (∃ s t, hashInput RangeOrder.stored (lit "xyz") (lit "abc") (lit "flickr.test")
          (mapOf [(lit "foo", lit "bar")]) = some s ∧
        hashInput RangeOrder.reversed (lit "xyz") (lit "abc") (lit "flickr.test")
          ((mapOf [(lit "foo", lit "bar")]).insert (lit "foo") (lit "baz")) = some t ∧
        s ≠ t) ∧
    (∃ s t, hashInput RangeOrder.stored (lit "xyz") (lit "abc") (lit "flickr.test")
          (mapOf [(lit "foo", lit "bar")]) = some s ∧
        hashInput RangeOrder.reversed (lit "xyz") (lit "abc") (lit "flickr.other")
          (mapOf [(lit "foo", lit "bar")]) = some t ∧ s ≠ t) ∧
    (∃ s t, hashInput RangeOrder.stored (lit "xyz") (lit "abc") (lit "flickr.test")
          (mapOf [(lit "foo", lit "bar")]) = some s ∧
        hashInput RangeOrder.reversed (lit "xyz") (lit "abd") (lit "flickr.test")
          (mapOf [(lit "foo", lit "bar")]) = some t ∧ s ≠ t) :=
  have h := sign_sensitive RangeOrder.stored RangeOrder.reversed (lit "xyz") (lit "abc")
    (lit "flickr.test") (mapOf [(lit "foo", lit "bar")])
  ⟨(h.1 (lit "foo") (lit "bar") (lit "baz") (by decide) (by decide) (by decide) (by decide)
      (by decide) (by decide)).imp fun _ hs => hs.imp fun _ ht => ⟨ht.1, ht.2.1, ht.2.2.1⟩,
    (h.2.1 (lit "flickr.other") (by decide) (by decide)).imp fun _ hs =>
      hs.imp fun _ ht => ⟨ht.1, ht.2.1, ht.2.2.1⟩,
    (h.2.2 (lit "abd") (by decide) (by decide)).imp fun _ hs =>
      hs.imp fun _ ht => ⟨ht.1, ht.2.1, ht.2.2.1⟩⟩

/-! ## Parameters set to the empty string (C6) -/

theorem keys_perm_cons (s t : GoMap) (k : GoString) (hk : k ∉ t)
    (h : ∀ x, x ∈ s ↔ x = k ∨ x ∈ t) : s.keys.Perm (k :: t.keys) := by
  refine (List.perm_ext_iff_of_nodup s.keys_nodup ?_).2 fun x => ?_
  · exact List.nodup_cons.2 ⟨fun hmem => hk (AList.mem_keys.2 hmem), t.keys_nodup⟩
  · rw [← AList.mem_keys, h x, List.mem_cons, AList.mem_keys]

theorem flatMap_orderedInsert_of_nil {α : Type} (f : GoString → List α) (k : GoString)
    (L : List GoString) (hk : f k = []) :
    (List.orderedInsert StrLE k L).flatMap f = L.flatMap f := by
  induction L with
  | nil => simp [hk]
  | cons x xs ih =>
    simp only [List.orderedInsert]
    split_ifs
    · simp [hk]
    · simp [ih]

theorem sortStrings_cons (k : GoString) (L : List GoString) :
    sortStrings (k :: L) = List.orderedInsert StrLE k (sortStrings L) := rfl

/-- C6: the signature is not sensitive to parameters explicitly set to the empty string.  For
every map `args` and every name `k` other than `api_key`, `method` and `api_sig`, signing
`args` with `k` mapped to the empty string and signing `args` with `k` absent (same API key,
method and secret) both return, hash the same string and produce the same `api_sig`. -/
theorem sign_ignores_empty_value (ρ ρ' : RangeOrder) (secret ApiKey Method : GoString)
    (args : GoMap) (k : GoString)
    (h1 : k ≠ lit "api_key") (h2 : k ≠ lit "method") (h3 : k ≠ lit "api_sig") :
    ∃ s, hashInput ρ secret ApiKey Method (args.insert k []) = some s ∧
      hashInput ρ' secret ApiKey Method (args.erase k) = some s ∧
      signature ρ secret ⟨ApiKey, Method, some (args.insert k [])⟩
        = some (hexLower (MD5.sum s)) ∧
      signature ρ' secret ⟨ApiKey, Method, some (args.erase k)⟩
        = some (hexLower (MD5.sum s)) := by
  have key : hashInput ρ secret ApiKey Method (args.insert k [])
      = hashInput ρ' secret ApiKey Method (args.erase k) := by
    rw [hashInput_eq, hashInput_eq]
    have hkA : k ∉ args.erase k := by
      rw [AList.mem_erase]; exact fun h => h.1 rfl
    have hmem : ∀ x, x ∈ args.insert k [] ↔ x = k ∨ x ∈ args.erase k := by
      intro x
      rw [AList.mem_insert, AList.mem_erase]
      by_cases hx : x = k
      · simp [hx]
      · simp [hx]
    have hp1 : ((args.insert k []).erase (lit "api_sig")).keys.Perm
        (k :: ((args.erase k).erase (lit "api_sig")).keys) := by
      apply keys_perm_cons
      · rw [AList.mem_erase]; exact fun h => hkA h.2
      · intro x
        rw [AList.mem_erase, AList.mem_erase, hmem x]
        by_cases hx : x = k
        · subst hx; simp [h3]
        · simp [hx]
    have hp2 : (signArgs ApiKey Method (args.insert k [])).keys.Perm
        (k :: (signArgs ApiKey Method (args.erase k)).keys) := by
      apply keys_perm_cons
      · rw [mem_signArgs]
        rintro (h | h | ⟨_, h⟩)
        · exact h2 h
        · exact h1 h
        · exact hkA h
      · intro x
        rw [mem_signArgs, mem_signArgs, hmem x]
        by_cases hx : x = k
        · subst hx; simp [h3]
        · simp [hx]
    have hpad : padding ApiKey Method (args.insert k [])
        = padding ApiKey Method (args.erase k) := by
      unfold padding
      rw [mapLen_eq_keys, mapLen_eq_keys, mapLen_eq_keys, mapLen_eq_keys, hp1.length_eq,
        hp2.length_eq]
      simp
    have hget : ∀ x, mapGet (signArgs ApiKey Method (args.insert k [])) x
        = mapGet (signArgs ApiKey Method (args.erase k)) x := by
      intro x
      by_cases hx1 : x = lit "method"
      · subst hx1; rw [mapGet_signArgs_method, mapGet_signArgs_method]
      · by_cases hx2 : x = lit "api_key"
        · subst hx2; rw [mapGet_signArgs_api_key, mapGet_signArgs_api_key]
        · by_cases hx3 : x = lit "api_sig"
          · subst hx3; rw [mapGet_signArgs_api_sig, mapGet_signArgs_api_sig]
          · rw [mapGet_signArgs_other _ _ _ hx1 hx2 hx3, mapGet_signArgs_other _ _ _ hx1 hx2 hx3]
            by_cases hx : x = k
            · subst hx; rw [mapGet_insert_self, mapGet_erase_self]
            · rw [mapGet_insert_ne _ _ hx, mapGet_erase_ne _ hx]
    have hcontrib : contrib (signArgs ApiKey Method (args.insert k []))
        = contrib (signArgs ApiKey Method (args.erase k)) := by
      funext x
      exact contrib_eq_of_mapGet_eq _ _ x (hget x)
    have hk0 : contrib (signArgs ApiKey Method (args.erase k)) k = [] := by
      have : mapGet (signArgs ApiKey Method (args.erase k)) k = [] := by
        rw [mapGet_signArgs_other _ _ _ h2 h1 h3, mapGet_erase_self]
      simp [contrib, this]
    have hkeys : canonKeys ApiKey Method (args.insert k [])
        = List.orderedInsert StrLE k (canonKeys ApiKey Method (args.erase k)) := by
      unfold canonKeys
      rw [hpad, ← sortStrings_cons]
      apply sortStrings_congr
      rw [← List.cons_append]
      exact hp2.append_right _
    rw [hkeys, hcontrib, flatMap_orderedInsert_of_nil _ _ _ hk0]
  obtain ⟨s, hs⟩ : ∃ s, hashInput ρ' secret ApiKey Method (args.erase k) = some s :=
    ⟨_, hashInput_eq _ _ _ _ _⟩
  exact ⟨s, key.trans hs, hs, signature_eq _ _ _ _ _ _ (key.trans hs),
    signature_eq _ _ _ _ _ _ hs⟩


/-- C6 at a concrete request: for `args = {foo: "bar"}`, key `abc`, method `flickr.test` and
secret `xyz`, signing with `page` mapped to the empty string and signing with `page` absent
give the same signature. -/
theorem sign_ignores_empty_value_witness :
    lit "page" ≠ lit "api_key" ∧ lit "page" ≠ lit "method" ∧
    lit "page" ≠ lit "api_sig" ∧
    ∃ s, hashInput RangeOrder.stored (lit "xyz") (lit "abc") (lit "flickr.test")
          ((mapOf [(lit "foo", lit "bar")]).insert (lit "page") []) = some s ∧
      hashInput RangeOrder.reversed (lit "xyz") (lit "abc") (lit "flickr.test")
          ((mapOf [(lit "foo", lit "bar")]).erase (lit "page")) = some s ∧
      signature RangeOrder.stored (lit "xyz") ⟨lit "abc", lit "flickr.test",
          some ((mapOf [(lit "foo", lit "bar")]).insert (lit "page") [])⟩
        = some (hexLower (MD5.sum s)) ∧
      signature RangeOrder.reversed (lit "xyz") ⟨lit "abc", lit "flickr.test",
          some ((mapOf [(lit "foo", lit "bar")]).erase (lit "page"))⟩
        = some (hexLower (MD5.sum s)) :=
  ⟨by decide, by decide, by decide,
    sign_ignores_empty_value RangeOrder.stored RangeOrder.reversed (lit "xyz") (lit "abc")
      (lit "flickr.test") (mapOf [(lit "foo", lit "bar")]) (lit "page") (by decide) (by decide)
      (by decide)⟩

/-! ## The query string (C8) -/

theorem foldl_encodeStep_pos (QueryEscape : GoString → GoString) (l : List Entry) (i : Nat)
    (buf : GoString) (hi : i ≠ 0) :
    (l.foldl (encodeStep QueryEscape) (i, buf)).2
      = buf ++ l.flatMap fun e => lit "&" ++ renderPair QueryEscape e := by
  induction l generalizing i buf with
  | nil => simp
  | cons e es ih =>
    rw [List.foldl_cons]
    have hstep : encodeStep QueryEscape (i, buf) e
        = (i + 1, buf ++ lit "&" ++ renderPair QueryEscape e) := by
      simp [encodeStep, hi, renderPair]
    rw [hstep, ih (i + 1) _ (Nat.succ_ne_zero i)]
    simp

theorem intercalate_cons_eq (sep x : GoString) (xs : List GoString) :
    List.intercalate sep (x :: xs) = x ++ xs.flatMap fun y => sep ++ y := by
  induction xs generalizing x with
  | nil => simp [List.intercalate]
  | cons y ys ih =>
    have h := ih y
    simp only [List.intercalate, List.intersperse_cons_cons, List.flatten_cons,
      List.flatMap_cons] at h ⊢
    rw [h]
    simp

/-- The loop of `encodeQuery` writes the rendered pairs in iteration order, separated by
single `&` bytes. -/
theorem encodeQuery_eq (ρ : RangeOrder) (QueryEscape : GoString → GoString) (m : GoMap) :
    encodeQuery ρ QueryEscape m
      = List.intercalate (lit "&") ((ρ.order m).map (renderPair QueryEscape)) := by
  unfold encodeQuery
  cases h : ρ.order m with
  | nil => simp [List.intercalate]
  | cons e es =>
    rw [List.foldl_cons]
    have hstep : encodeStep QueryEscape (0, []) e = (1, renderPair QueryEscape e) := by
      simp [encodeStep, renderPair]
    rw [hstep, foldl_encodeStep_pos _ _ _ _ Nat.one_ne_zero, List.map_cons, intercalate_cons_eq,
      List.flatMap_map]

theorem renderPair_ne_nil (QueryEscape : GoString → GoString) (e : Entry) :
    renderPair QueryEscape e ≠ [] := by
  simp [renderPair, lit]

theorem encodeQuery_eq_nil_iff (ρ : RangeOrder) (QueryEscape : GoString → GoString) (m : GoMap) :
    encodeQuery ρ QueryEscape m = [] ↔ m.entries = [] := by
  rw [encodeQuery_eq]
  constructor
  · intro h
    cases ho : ρ.order m with
    | nil =>
      have := ρ.perm m
      rw [ho] at this
      exact this.symm.eq_nil
    | cons e es =>
      rw [ho, List.map_cons, intercalate_cons_eq] at h
      exact absurd (List.append_eq_nil.1 h).1 (renderPair_ne_nil QueryEscape e)
  · intro h
    have := ρ.perm m
    rw [h] at this
    rw [this.eq_nil]
    simp [List.intercalate]

theorem range_nodup (ρ : RangeOrder) (m : GoMap) : (ρ.order m).Nodup :=
  (ρ.perm m).nodup_iff.2 (List.NodupKeys.nodup m.nodupKeys)


/-! ## The map after `sign` and after `url` -/

theorem lookup_signArgs_other (ApiKey Method : GoString) (args : GoMap) {x : GoString}
    (h1 : x ≠ lit "method") (h2 : x ≠ lit "api_key") (h3 : x ≠ lit "api_sig") :
    (signArgs ApiKey Method args).lookup x = args.lookup x := by
  unfold signArgs
  rw [AList.lookup_insert_ne h1, AList.lookup_insert_ne h2, AList.lookup_erase_ne h3]

theorem lookup_signArgs_api_sig (ApiKey Method : GoString) (args : GoMap) :
    (signArgs ApiKey Method args).lookup (lit "api_sig") = none := by
  unfold signArgs
  rw [AList.lookup_insert_ne lit_api_sig_ne_method,
    AList.lookup_insert_ne lit_api_sig_ne_api_key, AList.lookup_erase]

theorem lookup_signArgs_api_key (ApiKey Method : GoString) (args : GoMap) :
    (signArgs ApiKey Method args).lookup (lit "api_key") = some ApiKey := by
  unfold signArgs
  rw [AList.lookup_insert_ne lit_api_key_ne_method, AList.lookup_insert]

theorem lookup_signArgs_method (ApiKey Method : GoString) (args : GoMap) :
    (signArgs ApiKey Method args).lookup (lit "method") = some Method := by
  unfold signArgs
  rw [AList.lookup_insert]

theorem lookup_signedArgs_api_sig (ApiKey Method : GoString) (args : GoMap) (sig : GoString) :
    (signedArgs ApiKey Method args sig).lookup (lit "api_sig") = some sig := by
  unfold signedArgs
  rw [AList.lookup_insert]

theorem lookup_signedArgs_api_key (ApiKey Method : GoString) (args : GoMap) (sig : GoString) :
    (signedArgs ApiKey Method args sig).lookup (lit "api_key") = none := by
  unfold signedArgs
  rw [AList.lookup_insert_ne lit_api_sig_ne_api_key.symm,
    AList.lookup_erase_ne lit_api_key_ne_method, AList.lookup_erase]

theorem lookup_signedArgs_method (ApiKey Method : GoString) (args : GoMap) (sig : GoString) :
    (signedArgs ApiKey Method args sig).lookup (lit "method") = none := by
  unfold signedArgs
  rw [AList.lookup_insert_ne lit_api_sig_ne_method.symm, AList.lookup_erase]

theorem lookup_signedArgs_other (ApiKey Method : GoString) (args : GoMap) (sig : GoString)
    {x : GoString} (h1 : x ≠ lit "method") (h2 : x ≠ lit "api_key") (h3 : x ≠ lit "api_sig") :
    (signedArgs ApiKey Method args sig).lookup x = args.lookup x := by
  unfold signedArgs
  rw [AList.lookup_insert_ne h3, AList.lookup_erase_ne h1, AList.lookup_erase_ne h2,
    lookup_signArgs_other _ _ _ h1 h2 h3]

theorem lookup_urlArgs_api_key (ApiKey Method : GoString) (args : GoMap) :
    (urlArgs ApiKey Method args).lookup (lit "api_key") = some ApiKey := by
  unfold urlArgs
  rw [AList.lookup_insert_ne lit_api_key_ne_method, AList.lookup_insert]

theorem lookup_urlArgs_method (ApiKey Method : GoString) (args : GoMap) :
    (urlArgs ApiKey Method args).lookup (lit "method") = some Method := by
  unfold urlArgs
  rw [AList.lookup_insert]

theorem lookup_urlArgs_other (ApiKey Method : GoString) (args : GoMap) {x : GoString}
    (h1 : x ≠ lit "method") (h2 : x ≠ lit "api_key") :
    (urlArgs ApiKey Method args).lookup x = args.lookup x := by
  unfold urlArgs
  rw [AList.lookup_insert_ne h1, AList.lookup_insert_ne h2]

/-- The function `sign` returns on every request with an allocated map; the signature it
inserts is the `%x` format of the MD5 digest of the hashed string. -/
theorem sign_returns (ρ : RangeOrder) (secret ApiKey Method : GoString) (args : GoMap) :
    ∃ s, hashInput ρ secret ApiKey Method args = some s ∧
      sign ρ secret ⟨ApiKey, Method, some args⟩
        = some ⟨ApiKey, Method, some (signedArgs ApiKey Method args (hexLower (MD5.sum s)))⟩ ∧
      signature ρ secret ⟨ApiKey, Method, some args⟩ = some (hexLower (MD5.sum s)) :=
  ⟨_, hashInput_eq ρ secret ApiKey Method args,
    sign_eq ρ secret ApiKey Method args _ (hashInput_eq ρ secret ApiKey Method args),
    signature_eq ρ secret ApiKey Method args _ (hashInput_eq ρ secret ApiKey Method args)⟩

theorem url_eq (ρ : RangeOrder) (QueryEscape : GoString → GoString) (ApiKey Method : GoString)
    (args : GoMap) :
    url ρ QueryEscape ⟨ApiKey, Method, some args⟩
      = some (endpoint ++ List.intercalate (lit "&")
          ((ρ.order (urlArgs ApiKey Method args)).map (renderPair QueryEscape)),
        ⟨ApiKey, Method, some (urlArgs ApiKey Method args)⟩) := by
  simp [url, urlArgs, encodeQuery_eq]

/-- C8: `url()` returns the endpoint base followed by a query string that holds, exactly once
each and in some order, `name ++ "=" ++ QueryEscape(value)` for every entry of `Args` after
`api_key` and `method` have been set to the request's API key and method, consecutive pairs
separated by a single `&`; the query written by `encodeQuery` is empty only for an empty map;
and after `sign` then `url` the serialised map carries `api_key`, `method`, `api_sig` (the
computed signature) and every caller-supplied argument. -/
theorem url_spec (ρ ρs : RangeOrder) (QueryEscape : GoString → GoString)
    (secret ApiKey Method : GoString) (args : GoMap) :
    (∃ l : List Entry, l.Perm (urlArgs ApiKey Method args).entries ∧ l.Nodup ∧
      url ρ QueryEscape ⟨ApiKey, Method, some args⟩
        = some (endpoint ++ List.intercalate (lit "&") (l.map (renderPair QueryEscape)),
            ⟨ApiKey, Method, some (urlArgs ApiKey Method args)⟩)) ∧
    (urlArgs ApiKey Method args).lookup (lit "api_key") = some ApiKey ∧
    (urlArgs ApiKey Method args).lookup (lit "method") = some Method ∧
    (∀ k, k ≠ lit "api_key" → k ≠ lit "method" →
      (urlArgs ApiKey Method args).lookup k = args.lookup k) ∧
    (∀ m : GoMap, encodeQuery ρ QueryEscape m = [] ↔ m.entries = []) ∧
    (∃ (u sig : GoString) (m : GoMap) (l : List Entry),
      signature ρs secret ⟨ApiKey, Method, some args⟩ = some sig ∧
      signThenUrl ρs ρ QueryEscape secret ⟨ApiKey, Method, some args⟩
        = some (u, ⟨ApiKey, Method, some m⟩) ∧
      l.Perm m.entries ∧ l.Nodup ∧
      u = endpoint ++ List.intercalate (lit "&") (l.map (renderPair QueryEscape)) ∧
      m.lookup (lit "api_key") = some ApiKey ∧ m.lookup (lit "method") = some Method ∧
      m.lookup (lit "api_sig") = some sig ∧
      ∀ k, k ≠ lit "api_key" → k ≠ lit "method" → k ≠ lit "api_sig" →
        m.lookup k = args.lookup k) := by
  refine ⟨⟨ρ.order (urlArgs ApiKey Method args), ρ.perm _, range_nodup ρ _,
      url_eq _ _ _ _ _⟩,
    lookup_urlArgs_api_key _ _ _, lookup_urlArgs_method _ _ _,
    fun k h1 h2 => lookup_urlArgs_other _ _ _ h2 h1,
    fun m => encodeQuery_eq_nil_iff ρ QueryEscape m, ?_⟩
  obtain ⟨s, _, hsign, hsig⟩ := sign_returns ρs secret ApiKey Method args
  refine ⟨_, hexLower (MD5.sum s),
    urlArgs ApiKey Method (signedArgs ApiKey Method args (hexLower (MD5.sum s))),
    ρ.order (urlArgs ApiKey Method (signedArgs ApiKey Method args (hexLower (MD5.sum s)))),
    hsig, ?_, ρ.perm _, range_nodup ρ _, rfl, lookup_urlArgs_api_key _ _ _,
    lookup_urlArgs_method _ _ _, ?_, ?_⟩
  · simp [signThenUrl, hsign, url_eq]
  · rw [lookup_urlArgs_other _ _ _ lit_api_sig_ne_method lit_api_sig_ne_api_key,
      lookup_signedArgs_api_sig]
  · intro k h1 h2 h3
    rw [lookup_urlArgs_other _ _ _ h2 h1, lookup_signedArgs_other _ _ _ _ h2 h1 h3]


/-! ## The frame of `sign` (C3) -/

/-- C3, amended: `sign` returns on every allocated map and leaves it unchanged except for the
names `api_sig`, `api_key` and `method`.  After the call every other name is present exactly
when it was present before and maps to the same value; `api_sig` maps to the signature; and
no `api_key` or `method` entry is left behind, whether `sign` added it or the caller had
supplied it. -/
theorem sign_frame (ρ : RangeOrder) (secret ApiKey Method : GoString) (args : GoMap) :
    ∃ (after : GoMap) (sig : GoString),
      sign ρ secret ⟨ApiKey, Method, some args⟩ = some ⟨ApiKey, Method, some after⟩ ∧
      argsAfterSign ρ secret ⟨ApiKey, Method, some args⟩ = some after ∧
      signature ρ secret ⟨ApiKey, Method, some args⟩ = some sig ∧
      after.lookup (lit "api_sig") = some sig ∧
      after.lookup (lit "api_key") = none ∧
      after.lookup (lit "method") = none ∧
      ∀ name, name ≠ lit "api_sig" → name ≠ lit "api_key" → name ≠ lit "method" →
        after.lookup name = args.lookup name := by
  obtain ⟨s, _, hsign, hsig⟩ := sign_returns ρ secret ApiKey Method args
  refine ⟨_, _, hsign, ?_, hsig, lookup_signedArgs_api_sig _ _ _ _,
    lookup_signedArgs_api_key _ _ _ _, lookup_signedArgs_method _ _ _ _, ?_⟩
  · simp [argsAfterSign, hsign]
  · intro name h1 h2 h3
    exact lookup_signedArgs_other _ _ _ _ h3 h2 h1

/-- C3 as stated fails: with `args = {api_key: "x"}` the name `api_key`, which is not
`api_sig`, is present before `sign` and absent after it. -/
theorem sign_frame_counterexample :
    ¬ ∀ name, name ≠ lit "api_sig" →
      (argsAfterSign RangeOrder.stored (lit "xyz")
          ⟨lit "abc", lit "flickr.test", some (mapOf [(lit "api_key", lit "x")])⟩).map
          (AList.lookup name)
        = some ((mapOf [(lit "api_key", lit "x")]).lookup name) := by
  intro h
  have h1 := h (lit "api_key") (by decide)
  revert h1
  decide


/-! ## The unused slots of `sorted_keys` -/

theorem sortStrings_pad (ks : List GoString) (p : Nat) :
    sortStrings (ks ++ List.replicate p []) = List.replicate p [] ++ sortStrings ks := by
  symm
  apply sortStrings_unique
  · exact (List.perm_append_comm).trans ((sortStrings_perm ks).append_right _)
  · refine List.pairwise_append.2 ⟨?_, sortStrings_sorted ks, ?_⟩
    · exact List.pairwise_replicate.2 (Or.inr (strLE_nil []))
    · intro a ha b _
      rw [List.eq_of_mem_replicate ha]
      exact strLE_nil b

theorem mem_erase_api_sig (args : GoMap) {x : GoString} (hx : x ≠ lit "api_sig") :
    x ∈ args.erase (lit "api_sig") ↔ x ∈ args := by
  rw [AList.mem_erase]
  exact ⟨fun h => h.2, fun h => ⟨hx, h⟩⟩

/-- The number of unused slots: one for each of `api_key` and `method` that the caller's map
already holds. -/
theorem padding_eq (ApiKey Method : GoString) (args : GoMap) :
    padding ApiKey Method args
      = (if lit "api_key" ∈ args then 1 else 0) + (if lit "method" ∈ args then 1 else 0) := by
  unfold padding signArgs
  have hm : lit "method" ∈ (args.erase (lit "api_sig")).insert (lit "api_key") ApiKey
      ↔ lit "method" ∈ args := by
    rw [AList.mem_insert, mem_erase_api_sig _ lit_api_sig_ne_method.symm]
    exact ⟨fun h => h.resolve_left lit_api_key_ne_method.symm, Or.inr⟩
  have hk : lit "api_key" ∈ args.erase (lit "api_sig") ↔ lit "api_key" ∈ args :=
    mem_erase_api_sig _ lit_api_sig_ne_api_key.symm
  by_cases h1 : lit "api_key" ∈ args <;> by_cases h2 : lit "method" ∈ args
  · rw [mapLen_insert_of_mem _ (hm.2 h2), mapLen_insert_of_mem _ (hk.2 h1)]
    simp [h1, h2]
  · rw [mapLen_insert_of_not_mem _ (fun h => h2 (hm.1 h)), mapLen_insert_of_mem _ (hk.2 h1)]
    simp [h1, h2]
  · rw [mapLen_insert_of_mem _ (hm.2 h2), mapLen_insert_of_not_mem _ (fun h => h1 (hk.1 h))]
    simp [h1, h2]
  · rw [mapLen_insert_of_not_mem _ (fun h => h2 (hm.1 h)),
      mapLen_insert_of_not_mem _ (fun h => h1 (hk.1 h))]
    simp [h1, h2]

/-! ## What is signed and what is sent (C4) -/

theorem lookup_of_mapGet_ne_nil (m : GoMap) (k : GoString) (h : mapGet m k ≠ []) :
    m.lookup k = some (mapGet m k) := by
  unfold mapGet at h ⊢
  cases hl : m.lookup k with
  | none => simp [hl] at h
  | some v => simp

theorem mem_canonKeys_of_mem (ApiKey Method : GoString) (args : GoMap) (k : GoString)
    (h : k ∈ signArgs ApiKey Method args) : k ∈ canonKeys ApiKey Method args := by
  unfold canonKeys
  rw [mem_sortStrings]
  exact List.mem_append_left _ (AList.mem_keys.1 h)

/-- The pairs `sign` concatenates are the entries of the augmented map with a non-empty
value. -/
theorem mem_signed_iff (ApiKey Method : GoString) (args : GoMap) (k v : GoString) :
    (k, v) ∈ (canonKeys ApiKey Method args).flatMap (contribPair (signArgs ApiKey Method args))
      ↔ (signArgs ApiKey Method args).lookup k = some v ∧ v ≠ [] := by
  rw [List.mem_flatMap]
  constructor
  · rintro ⟨key, _, hmem⟩
    unfold contribPair at hmem
    by_cases hne : mapGet (signArgs ApiKey Method args) key = []
    · simp [hne] at hmem
    · simp only [hne, ne_eq, not_false_eq_true, if_true, List.mem_singleton, Prod.mk.injEq] at hmem
      obtain ⟨rfl, rfl⟩ := hmem
      exact ⟨lookup_of_mapGet_ne_nil _ _ hne, hne⟩
  · rintro ⟨hl, hv⟩
    have hget : mapGet (signArgs ApiKey Method args) k = v := by simp [mapGet, hl]
    refine ⟨k, mem_canonKeys_of_mem _ _ _ _ (AList.lookup_isSome.1 (by simp [hl])), ?_⟩
    simp [contribPair, hget, hv]

theorem flatMap_contribPair (m : GoMap) (L : List GoString) :
    (L.flatMap (contribPair m)).flatMap (fun p => p.1 ++ p.2) = L.flatMap (contrib m) := by
  induction L with
  | nil => rfl
  | cons x xs ih =>
    simp only [List.flatMap_cons, List.flatMap_append, ih]
    congr 1
    by_cases h : mapGet m x = []
    · simp [contribPair, contrib, h]
    · simp [contribPair, contrib, h]

/-- After `sign` then `url`, a name other than `api_sig` reads the same in the serialised map
as in the map `sign` iterated over. -/
theorem lookup_sent_eq (ApiKey Method : GoString) (args : GoMap) (sig : GoString)
    {k : GoString} (hk : k ≠ lit "api_sig") :
    (urlArgs ApiKey Method (signedArgs ApiKey Method args sig)).lookup k
      = (signArgs ApiKey Method args).lookup k := by
  by_cases h1 : k = lit "method"
  · subst h1; rw [lookup_urlArgs_method, lookup_signArgs_method]
  · by_cases h2 : k = lit "api_key"
    · subst h2; rw [lookup_urlArgs_api_key, lookup_signArgs_api_key]
    · rw [lookup_urlArgs_other _ _ _ h1 h2, lookup_signedArgs_other _ _ _ _ h1 h2 hk,
        lookup_signArgs_other _ _ _ h1 h2 hk]

theorem mem_renderedPairs (ρ : RangeOrder) (m : GoMap) (k v : GoString) :
    (k, v) ∈ renderedPairs ρ m ↔ m.lookup k = some v := by
  unfold renderedPairs
  rw [List.mem_map]
  constructor
  · rintro ⟨e, he, heq⟩
    obtain ⟨rfl, rfl⟩ := Prod.mk.inj heq
    exact AList.mem_lookup_iff.2 ((ρ.perm m).mem_iff.1 he)
  · intro h
    exact ⟨⟨k, v⟩, (ρ.perm m).mem_iff.2 (AList.mem_lookup_iff.1 h), rfl⟩

theorem sentPairs_eq_of_signThenUrl (ρs ρu : RangeOrder) (QueryEscape : GoString → GoString)
    (secret : GoString) (request : Request) (u : GoString) (r : Request) (m : GoMap)
    (hr : r.Args = some m)
    (h : signThenUrl ρs ρu QueryEscape secret request = some (u, r)) :
    sentPairs ρs ρu QueryEscape secret request
      = some ((renderedPairs ρu m).filter fun p => p.1 ≠ lit "api_sig") := by
  simp [sentPairs, h, hr]

/-- The run of `sign` then `url` on an allocated map: the URL, the pairs it renders, the pairs
`sign` concatenated, and which pairs occur among them (occurrence only, not how often). -/
theorem sign_then_url_pairs (ρs ρu : RangeOrder) (QueryEscape : GoString → GoString)
    (secret ApiKey Method : GoString) (args : GoMap) :
    ∃ (u : GoString) (after : GoMap) (sent signed : List (GoString × GoString)),
      signThenUrl ρs ρu QueryEscape secret ⟨ApiKey, Method, some args⟩
        = some (u, ⟨ApiKey, Method, some after⟩) ∧
      u = endpoint ++ List.intercalate (lit "&")
        ((renderedPairs ρu after).map fun p => p.1 ++ lit "=" ++ QueryEscape p.2) ∧
      sentPairs ρs ρu QueryEscape secret ⟨ApiKey, Method, some args⟩ = some sent ∧
      (∀ p, p ∈ sent ↔ p ∈ renderedPairs ρu after ∧ p.1 ≠ lit "api_sig") ∧
      signedPairs ρs secret ApiKey Method args = some signed ∧
      hashInput ρs secret ApiKey Method args
        = some (secret ++ signed.flatMap fun p => p.1 ++ p.2) ∧
      ∀ p, p ∈ signed ↔ p ∈ sent ∧ p.2 ≠ [] := by
  obtain ⟨s, _, hsign, _⟩ := sign_returns ρs secret ApiKey Method args
  have hstu : signThenUrl ρs ρu QueryEscape secret ⟨ApiKey, Method, some args⟩
      = some (endpoint ++ List.intercalate (lit "&")
          ((ρu.order (urlArgs ApiKey Method (signedArgs ApiKey Method args
            (hexLower (MD5.sum s))))).map (renderPair QueryEscape)),
        ⟨ApiKey, Method, some (urlArgs ApiKey Method (signedArgs ApiKey Method args
            (hexLower (MD5.sum s))))⟩) := by
    simp [signThenUrl, hsign, url_eq]
  refine ⟨_, _, (renderedPairs ρu (urlArgs ApiKey Method (signedArgs ApiKey Method args
      (hexLower (MD5.sum s))))).filter (fun p => p.1 ≠ lit "api_sig"), _, hstu, ?_, ?_, ?_,
    signedPairs_eq ρs secret ApiKey Method args, ?_, ?_⟩
  · unfold renderedPairs
    rw [List.map_map]
    rfl
  · simp only [sentPairs, hstu, Option.some_bind, Option.map_some']
  · intro p
    simp [List.mem_filter]
  · rw [hashInput_eq, flatMap_contribPair]
  · rintro ⟨k, v⟩
    rw [mem_signed_iff, List.mem_filter, mem_renderedPairs]
    constructor
    · rintro ⟨hl, hv⟩
      have hk : k ≠ lit "api_sig" := by
        rintro rfl
        rw [lookup_signArgs_api_sig] at hl
        exact Option.noConfusion hl
      refine ⟨⟨?_, by simpa using hk⟩, hv⟩
      rw [lookup_sent_eq _ _ _ _ hk]
      exact hl
    · rintro ⟨⟨hl, hk⟩, hv⟩
      have hk' : k ≠ lit "api_sig" := by simpa using hk
      rw [lookup_sent_eq _ _ _ _ hk'] at hl
      exact ⟨hl, hv⟩

theorem map_fst_flatMap_contribPair (m : GoMap) (L : List GoString) :
    (L.flatMap (contribPair m)).map Prod.fst = L.filter fun k => mapGet m k ≠ [] := by
  induction L with
  | nil => rfl
  | cons x xs ih =>
    rw [List.flatMap_cons, List.map_append, ih]
    by_cases h : mapGet m x = []
    · simp [contribPair, h]
    · simp [contribPair, h]

theorem nodup_flatMap_contribPair (m : GoMap) (L : List GoString) (hL : L.Nodup) :
    (L.flatMap (contribPair m)).Nodup := by
  apply List.Nodup.of_map Prod.fst
  rw [map_fst_flatMap_contribPair]
  exact hL.filter _

theorem flatMap_contribPair_replicate (m : GoMap) (p : Nat) (h : p = 0 ∨ mapGet m [] = []) :
    (List.replicate p ([] : GoString)).flatMap (contribPair m) = [] := by
  rcases h with rfl | h
  · rfl
  · induction p with
    | zero => rfl
    | succ n ih =>
      rw [List.replicate_succ, List.flatMap_cons, ih]
      simp [contribPair, h]

/-- Without an unused slot that repeats a non-empty value, the pairs `sign` concatenates are
those of the names of the augmented map in ascending order, each name at most once. -/
theorem signed_eq_of_no_collision (ApiKey Method : GoString) (args : GoMap)
    (h : (lit "api_key" ∉ args ∧ lit "method" ∉ args) ∨ mapGet args [] = []) :
    (canonKeys ApiKey Method args).flatMap (contribPair (signArgs ApiKey Method args))
      = (sortStrings (signArgs ApiKey Method args).keys).flatMap
          (contribPair (signArgs ApiKey Method args)) := by
  have h0 : mapGet (signArgs ApiKey Method args) [] = mapGet args [] :=
    mapGet_signArgs_other _ _ _ (by decide) (by decide) (by decide)
  unfold canonKeys
  rw [sortStrings_pad, List.flatMap_append, flatMap_contribPair_replicate, List.nil_append]
  rcases h with ⟨h1, h2⟩ | h
  · left; rw [padding_eq]; simp [h1, h2]
  · right; rw [h0]; exact h

theorem renderedPairs_nodup (ρ : RangeOrder) (m : GoMap) : (renderedPairs ρ m).Nodup := by
  unfold renderedPairs
  apply (range_nodup ρ m).map
  rintro ⟨a, b⟩ ⟨c, d⟩ heq
  obtain ⟨rfl, rfl⟩ := Prod.mk.inj heq
  rfl

/-- C4, amended: for every request whose allocated parameter mapping holds neither `api_key`
nor `method`, or holds no non-empty value under the empty name, after `sign` then `url` the
(name, value) pairs rendered in the query string, other than `api_sig` and other than those
whose value is the empty string, are exactly the pairs concatenated into the string `sign`
hashed, each of them once (the two lists are permutations of each other, without
repetition).  Pairs with an empty value are sent but not signed. -/
theorem signed_pairs_are_sent_nonempty (ρs ρu : RangeOrder) (QueryEscape : GoString → GoString)
    (secret ApiKey Method : GoString) (args : GoMap)
    (h : (lit "api_key" ∉ args ∧ lit "method" ∉ args) ∨ mapGet args [] = []) :
    ∃ (u : GoString) (after : GoMap) (sent signed : List (GoString × GoString)),
      signThenUrl ρs ρu QueryEscape secret ⟨ApiKey, Method, some args⟩
        = some (u, ⟨ApiKey, Method, some after⟩) ∧
      u = endpoint ++ List.intercalate (lit "&")
        ((renderedPairs ρu after).map fun p => p.1 ++ lit "=" ++ QueryEscape p.2) ∧
      sentPairs ρs ρu QueryEscape secret ⟨ApiKey, Method, some args⟩ = some sent ∧
      sent = (renderedPairs ρu after).filter (fun p => p.1 ≠ lit "api_sig") ∧
      signedPairs ρs secret ApiKey Method args = some signed ∧
      hashInput ρs secret ApiKey Method args
        = some (secret ++ signed.flatMap fun p => p.1 ++ p.2) ∧
      signed.Nodup ∧
      signed.Perm (sent.filter fun p => p.2 ≠ []) := by
  obtain ⟨u, after, sent, signed, h1, h2, h3, h4, h5, h6, h7⟩ :=
    sign_then_url_pairs ρs ρu QueryEscape secret ApiKey Method args
  have hsigned : signed = (sortStrings (signArgs ApiKey Method args).keys).flatMap
      (contribPair (signArgs ApiKey Method args)) := by
    rw [signedPairs_eq] at h5
    rw [← Option.some.inj h5]
    exact signed_eq_of_no_collision ApiKey Method args h
  have hnd : signed.Nodup := by
    rw [hsigned]
    exact nodup_flatMap_contribPair _ _
      ((sortStrings_perm _).nodup_iff.2 (signArgs ApiKey Method args).keys_nodup)
  have hsent : sent = (renderedPairs ρu after).filter (fun p => p.1 ≠ lit "api_sig") := by
    have hs := sentPairs_eq_of_signThenUrl ρs ρu QueryEscape secret _ _ _ after rfl h1
    rw [h3] at hs
    exact Option.some.inj hs
  have hnd2 : (sent.filter fun p => p.2 ≠ []).Nodup := by
    rw [hsent]
    exact ((renderedPairs_nodup ρu after).filter _).filter _
  refine ⟨u, after, sent, signed, h1, h2, h3, hsent, h5, h6, hnd, ?_⟩
  refine (List.perm_ext_iff_of_nodup hnd hnd2).2 fun p => ?_
  rw [h7 p, List.mem_filter]
  simp

/-- C4, amended, at a concrete request: for `args = {foo: "bar", page: ""}`, key `abc`, method
`flickr.test` and secret `xyz`, the signed pairs are a rearrangement of the sent pairs with a
non-empty value. -/
theorem signed_pairs_are_sent_nonempty_witness :
    ((lit "api_key" ∉ mapOf [(lit "foo", lit "bar"), (lit "page", [])] ∧
        lit "method" ∉ mapOf [(lit "foo", lit "bar"), (lit "page", [])]) ∨
      mapGet (mapOf [(lit "foo", lit "bar"), (lit "page", [])]) [] = []) ∧
    ∃ sent signed : List (GoString × GoString),
      sentPairs RangeOrder.stored RangeOrder.reversed queryEscape (lit "xyz")
        ⟨lit "abc", lit "flickr.test", some (mapOf [(lit "foo", lit "bar"), (lit "page", [])])⟩
        = some sent ∧
      signedPairs RangeOrder.stored (lit "xyz") (lit "abc") (lit "flickr.test")
        (mapOf [(lit "foo", lit "bar"), (lit "page", [])]) = some signed ∧
      signed.Nodup ∧ signed.Perm (sent.filter fun p => p.2 ≠ []) :=
  ⟨Or.inl ⟨by decide, by decide⟩,
    (signed_pairs_are_sent_nonempty RangeOrder.stored RangeOrder.reversed queryEscape (lit "xyz")
      (lit "abc") (lit "flickr.test") (mapOf [(lit "foo", lit "bar"), (lit "page", [])])
      (Or.inl ⟨by decide, by decide⟩)).elim fun _ hu => hu.elim fun _ ha =>
        ha.elim fun sent hs => hs.elim fun signed hh =>
          ⟨sent, signed, hh.2.2.1, hh.2.2.2.2.1, hh.2.2.2.2.2.2.1, hh.2.2.2.2.2.2.2⟩⟩

/-- C4 as stated fails: with `args = {foo: ""}` the pair `(foo, "")` is rendered in the query
string (`foo=`) and is not among the pairs concatenated into the hashed string. -/
theorem signed_pairs_counterexample :
    sentPairs RangeOrder.stored RangeOrder.stored queryEscape (lit "xyz")
        ⟨lit "abc", lit "flickr.test", some (mapOf [(lit "foo", [])])⟩
      = some [(lit "method", lit "flickr.test"), (lit "api_key", lit "abc"), (lit "foo", [])] ∧
    signedPairs RangeOrder.stored (lit "xyz") (lit "abc") (lit "flickr.test")
        (mapOf [(lit "foo", [])])
      = some [(lit "api_key", lit "abc"), (lit "method", lit "flickr.test")] ∧
    hashInput RangeOrder.stored (lit "xyz") (lit "abc") (lit "flickr.test")
        (mapOf [(lit "foo", [])])
      = some (lit "xyzapi_keyabcmethodflickr.test") := by
  decide


/-! ## `Connection.execute` (C5, C9) -/

/-- C5: `execute` fails with the invalid-request error (`Error "Need both API key and method"`
and a nil body) if and only if the request's API key is empty or its method name is empty; and
in that case it has taken no step: no URL was built (the request is as it was) and no HTTP
request was issued. -/
theorem execute_invalid_iff (net : Net) (ρ : RangeOrder) (QueryEscape : GoString → GoString)
    (connection : Connection) (request : Request) :
    ((execute net ρ QueryEscape connection request).result = some (none, some invalidRequest)
      ↔ (request.ApiKey = [] ∨ request.Method = [])) ∧
    ((request.ApiKey = [] ∨ request.Method = []) →
      (execute net ρ QueryEscape connection request).events = [] ∧
      (execute net ρ QueryEscape connection request).request = request) := by
  by_cases h : request.ApiKey = [] ∨ request.Method = []
  · simp [execute, h, invalidRequest]
  · refine ⟨⟨fun hres => ?_, fun h' => absurd h' h⟩, fun h' => absurd h' h⟩
    exfalso
    simp only [execute, h, if_false] at hres
    cases hu : url ρ QueryEscape request with
    | none => simp [hu] at hres
    | some p =>
      obtain ⟨s, r1⟩ := p
      simp only [hu] at hres
      cases hd : net.Do (match connection.Client with
          | none => Client.zero
          | some c => c) (net.NewRequest (lit "GET") s) with
      | panic => simp [hd] at hres
      | error e => simp [hd, invalidRequest] at hres
      | response r => simp [hd, invalidRequest] at hres

/-- C5 at concrete requests: an empty method with a set key, and an empty key with a set
method, both fail with the invalid-request error before any step is taken. -/
theorem execute_invalid_iff_witness :
    ((execute brokenBody RangeOrder.stored queryEscape ⟨lit "abc", lit "secret", none⟩
        ⟨lit "abc", [], some ∅⟩).result = some (none, some invalidRequest) ∧
      (execute brokenBody RangeOrder.stored queryEscape ⟨lit "abc", lit "secret", none⟩
        ⟨lit "abc", [], some ∅⟩).events = []) ∧
    ((execute brokenBody RangeOrder.stored queryEscape ⟨[], lit "secret", none⟩
        ⟨[], lit "flickr.test", some ∅⟩).result = some (none, some invalidRequest) ∧
      (execute brokenBody RangeOrder.stored queryEscape ⟨[], lit "secret", none⟩
        ⟨[], lit "flickr.test", some ∅⟩).events = []) :=
  have h1 := execute_invalid_iff brokenBody RangeOrder.stored queryEscape
    ⟨lit "abc", lit "secret", none⟩ ⟨lit "abc", [], some ∅⟩
  have h2 := execute_invalid_iff brokenBody RangeOrder.stored queryEscape
    ⟨[], lit "secret", none⟩ ⟨[], lit "flickr.test", some ∅⟩
  ⟨⟨h1.1.2 (Or.inr rfl), (h1.2 (Or.inr rfl)).1⟩,
    ⟨h2.1.2 (Or.inl rfl), (h2.2 (Or.inl rfl)).1⟩⟩

/-- What `execute` returns for a valid request whose GET succeeds: the bytes `ReadAll`
obtained and a nil error, whatever error `ReadAll` reported. -/
theorem execute_ok (net : Net) (ρ : RangeOrder) (QueryEscape : GoString → GoString)
    (connection : Connection) (ApiKey Method : GoString) (args : GoMap) (res : Response)
    (hk : ApiKey ≠ []) (hm : Method ≠ [])
    (hdo : ∀ c r, net.Do c r = DoResult.response res) :
    (execute net ρ QueryEscape connection ⟨ApiKey, Method, some args⟩).result
      = some (res.data, none) := by
  simp [execute, hk, hm, url, hdo]

/-- What `execute` returns for a valid request whose GET fails: a nil body and the error. -/
theorem execute_transport_error (net : Net) (ρ : RangeOrder)
    (QueryEscape : GoString → GoString) (connection : Connection) (ApiKey Method : GoString)
    (args : GoMap) (e : Nat) (hk : ApiKey ≠ []) (hm : Method ≠ [])
    (hdo : ∀ c r, net.Do c r = DoResult.error e) :
    (execute net ρ QueryEscape connection ⟨ApiKey, Method, some args⟩).result
      = some (none, some (GoError.transport e)) := by
  simp [execute, hk, hm, url, hdo]

/-- C9, the defect: for the valid request with key `abc` and method `flickr.test`, on a
network where the GET succeeds and the read of the body fails after two bytes, `execute`
returns the two bytes read with a nil error. -/
theorem execute_swallows_read_error :
    brokenBody.Do Client.zero (brokenBody.NewRequest (lit "GET")
        (lit "https://api.flickr.com/services/rest/?method=flickr.test&api_key=abc"))
      = DoResult.response ⟨some (lit "hi"), some 7⟩ ∧
    (execute brokenBody RangeOrder.stored queryEscape ⟨lit "abc", lit "secret", none⟩
        ⟨lit "abc", lit "flickr.test", some ∅⟩).events
      = [Event.builtURL
          (lit "https://api.flickr.com/services/rest/?method=flickr.test&api_key=abc"),
        Event.sent Client.zero (some ⟨lit "GET",
          lit "https://api.flickr.com/services/rest/?method=flickr.test&api_key=abc"⟩),
        Event.readBody, Event.closedBody] ∧
    (execute brokenBody RangeOrder.stored queryEscape ⟨lit "abc", lit "secret", none⟩
        ⟨lit "abc", lit "flickr.test", some ∅⟩).result
      = some (some (lit "hi"), none) := by
  decide


/-! ## The defect of `sorted_keys` (C10, C1, C2) -/

/-- The slice `sorted_keys` in general: `padding` empty strings, then the names of the
augmented map in ascending order. -/
theorem sortedKeys_char (ρ : RangeOrder) (ApiKey Method : GoString) (args : GoMap) :
    sortedKeys ρ ApiKey Method args
      = some (List.replicate (padding ApiKey Method args) []
          ++ sortStrings (signArgs ApiKey Method args).keys) := by
  rw [sortedKeys_eq, sortStrings_pad]

theorem flatMap_replicate_nil (m : GoMap) (p : Nat) :
    (List.replicate p ([] : GoString)).flatMap (contrib m)
      = (List.replicate p (mapGet m [])).flatten := by
  induction p with
  | zero => rfl
  | succ n ih =>
    rw [List.replicate_succ, List.replicate_succ, List.flatMap_cons, ih, List.flatten_cons]
    congr 1
    by_cases h : mapGet m [] = []
    · simp [contrib, h]
    · simp [contrib, h]

/-- The hashed string in general: the secret, then the value stored under the empty name once
for every unused slot, then what the specification describes. -/
theorem hashInput_char (ρ : RangeOrder) (secret ApiKey Method : GoString) (args : GoMap) :
    hashInput ρ secret ApiKey Method args
      = some (secret ++ ((List.replicate (padding ApiKey Method args) (mapGet args [])).flatten
          ++ (sortStrings (signArgs ApiKey Method args).keys).flatMap
              (contrib (signArgs ApiKey Method args)))) := by
  have h0 : mapGet (signArgs ApiKey Method args) [] = mapGet args [] :=
    mapGet_signArgs_other _ _ _ (by decide) (by decide) (by decide)
  rw [hashInput_eq]
  unfold canonKeys
  rw [sortStrings_pad, List.flatMap_append, flatMap_replicate_nil, h0]

/-- The specification of `sign` holds whenever the caller's map holds neither `api_key` nor
`method`, and whenever it holds no non-empty value under the empty name: `api_sig` is then the
lowercase hex MD5 digest of the secret followed by `name ++ value` for each name of the map
(without `api_sig`, with `api_key` and `method` set) in ascending order, skipping empty
values. -/
theorem sign_spec_of_no_collision (ρ : RangeOrder) (secret ApiKey Method : GoString)
    (args : GoMap)
    (h : (lit "api_key" ∉ args ∧ lit "method" ∉ args) ∨ mapGet args [] = []) :
    hashInput ρ secret ApiKey Method args
        = some (canonicalString secret (signArgs ApiKey Method args)) ∧
      signature ρ secret ⟨ApiKey, Method, some args⟩
        = some (hexLower (MD5.sum (canonicalString secret (signArgs ApiKey Method args)))) := by
  have key : hashInput ρ secret ApiKey Method args
      = some (canonicalString secret (signArgs ApiKey Method args)) := by
    rw [hashInput_char]
    have hnil : (List.replicate (padding ApiKey Method args) (mapGet args [])).flatten = [] := by
      rcases h with ⟨h1, h2⟩ | h0
      · rw [padding_eq]; simp [h1, h2]
      · rw [h0]; simp
    rw [hnil]
    rfl
  exact ⟨key, signature_eq _ _ _ _ _ _ key⟩

/-- The example of the specification: for `args = {foo: "bar"}`, method `flickr.test`, key
`abc` and secret `xyz` the hashed string is `xyzapi_keyabcfoobarmethodflickr.test`, and
`api_sig` is its MD5 digest in lowercase hex. -/
theorem sign_example :
    hashInput RangeOrder.stored (lit "xyz") (lit "abc") (lit "flickr.test")
        (mapOf [(lit "foo", lit "bar")])
      = some (lit "xyzapi_keyabcfoobarmethodflickr.test") ∧
    signature RangeOrder.stored (lit "xyz")
        ⟨lit "abc", lit "flickr.test", some (mapOf [(lit "foo", lit "bar")])⟩
      = some (lit "c20c7971cb49adbd3ba49c0e04b8d800") := by
  decide

/-- C10, the defect: for `args = {"": "v", api_key: "x"}` and every iteration order, the
sorted slice is `["", "", "api_key", "method"]`.  The empty name occurs twice although the
augmented map has the three names `""`, `api_key`, `method`, and its value `v` enters the
hashed string twice. -/
theorem sortedKeys_duplicate (ρ : RangeOrder) :
    (signArgs (lit "abc") (lit "flickr.test")
        (mapOf [([], lit "v"), (lit "api_key", lit "x")])).keys
      = [lit "method", lit "api_key", []] ∧
    sortedKeys ρ (lit "abc") (lit "flickr.test")
        (mapOf [([], lit "v"), (lit "api_key", lit "x")])
      = some [[], [], lit "api_key", lit "method"] ∧
    signedPairs ρ (lit "xyz") (lit "abc") (lit "flickr.test")
        (mapOf [([], lit "v"), (lit "api_key", lit "x")])
      = some [([], lit "v"), ([], lit "v"), (lit "api_key", lit "abc"),
          (lit "method", lit "flickr.test")] := by
  refine ⟨by decide, ?_, ?_⟩
  · rw [sortedKeys_eq]; decide
  · rw [signedPairs_eq]; decide

/-- C1, the defect: for `args = {"": "v", api_key: "x"}`, method `flickr.test`, key `abc` and
secret `xyz`, and every iteration order, `sign` hashes `xyzvvapi_keyabcmethodflickr.test`,
while the string of the specification is `xyzvapi_keyabcmethodflickr.test`; the signatures
differ. -/
theorem sign_hashes_duplicate (ρ : RangeOrder) :
    hashInput ρ (lit "xyz") (lit "abc") (lit "flickr.test")
        (mapOf [([], lit "v"), (lit "api_key", lit "x")])
      = some (lit "xyzvvapi_keyabcmethodflickr.test") ∧
    canonicalString (lit "xyz") (signArgs (lit "abc") (lit "flickr.test")
        (mapOf [([], lit "v"), (lit "api_key", lit "x")]))
      = lit "xyzvapi_keyabcmethodflickr.test" ∧
    signature ρ (lit "xyz")
        ⟨lit "abc", lit "flickr.test", some (mapOf [([], lit "v"), (lit "api_key", lit "x")])⟩
      = some (lit "4e3018f92c609910f0e4ee070c16736d") ∧
    hexLower (MD5.sum (lit "xyzvapi_keyabcmethodflickr.test"))
      = lit "96ff3382a1c2930cbc46d074b73d3ed3" := by
  refine ⟨?_, by decide, ?_, by decide⟩
  · rw [hashInput_eq]; decide
  · rw [signature_eq _ _ _ _ _ _ (hashInput_eq _ _ _ _ _)]; decide

/-- C2, the defect: for `args = {"": "v", api_key: "x"}`, method `flickr.test`, key `abc` and
secret `xyz`, and every iteration order, the first call of `sign` leaves the signature
`4e3018f92c609910f0e4ee070c16736d` and a second call in a row leaves
`96ff3382a1c2930cbc46d074b73d3ed3`. -/
theorem sign_twice_differs (ρ ρ' : RangeOrder) :
    signature ρ (lit "xyz")
        ⟨lit "abc", lit "flickr.test", some (mapOf [([], lit "v"), (lit "api_key", lit "x")])⟩
      = some (lit "4e3018f92c609910f0e4ee070c16736d") ∧
    signatureTwice ρ ρ' (lit "xyz")
        ⟨lit "abc", lit "flickr.test", some (mapOf [([], lit "v"), (lit "api_key", lit "x")])⟩
      = some (lit "96ff3382a1c2930cbc46d074b73d3ed3") := by
  constructor
  · rw [signature_eq _ _ _ _ _ _ (hashInput_eq _ _ _ _ _)]; decide
  · unfold signatureTwice
    rw [sign_eq _ _ _ _ _ _ (hashInput_eq _ _ _ _ _), Option.some_bind,
      signature_eq _ _ _ _ _ _ (hashInput_eq _ _ _ _ _)]
    decide

end FlickrAPI
